import Mathlib

/-!
Verification of the fr_de_connectives_alignment pipeline.

This file gives a shallow embedding, in Lean 4, of the connective-alignment
mining pipeline of the repository (src/processing_filtering.py,
src/parse_all_alignments.py, src/conn_search.py) and proves properties of it.

Modelling conventions:
* A Python `dict` is modelled as an association list `List (κ × α)` whose
  operations mirror CPython semantics: insertion order is preserved, updating
  an existing key keeps its position, new keys are appended at the end.
* Python `float` probabilities are modelled as exact rationals `ℚ`.
* Python exceptions that escape a function are modelled with `Except String`.
* A `collections.Counter` is an ordinary table of counts whose lookup
  defaults to `0` for a missing key.
-/

/-- A Python dict: an ordered association list. -/
abbrev Tab (κ : Type) (α : Type) : Type := List (κ × α)

/-- `d[k]` as a total lookup returning `Option`: first binding wins. -/
def tabLookup {κ α : Type} [DecidableEq κ] : Tab κ α → κ → Option α
  | [], _ => none
  | (k, v) :: t, key => if k = key then some v else tabLookup t key

/-- Lookup with a default value (`Counter.__getitem__` returns 0). -/
def tabLookupD {κ α : Type} [DecidableEq κ] (d : Tab κ α) (key : κ) (dflt : α) : α :=
  (tabLookup d key).getD dflt

/-- `k in d` membership test. -/
def tabContains {κ α : Type} [DecidableEq κ] (d : Tab κ α) (key : κ) : Bool :=
  (tabLookup d key).isSome

/-- `d[k] = v`: replace the first binding of `k` in place, else append at the
end, mirroring CPython dict insertion-order semantics. -/
def tabInsert {κ α : Type} [DecidableEq κ] : Tab κ α → κ → α → Tab κ α
  | [], key, v => [(key, v)]
  | (k, w) :: t, key, v => if k = key then (k, v) :: t else (k, w) :: tabInsert t key v

/-- `del d[k]` / `d.pop(k)`: remove the first binding of `k` (no-op when the
key is absent; the call sites guard presence). -/
def tabErase {κ α : Type} [DecidableEq κ] : Tab κ α → κ → Tab κ α
  | [], _ => []
  | (k, w) :: t, key => if k = key then t else (k, w) :: tabErase t key

/-- The list of keys of a dict, in order. -/
def tabKeys {κ α : Type} (d : Tab κ α) : List κ :=
  d.map Prod.fst

/-- `d.update(e)` / `{**d, **e}`: insert every binding of `e` into `d` in
order; existing keys are overwritten in place, new keys appended. -/
def tabUpdate {κ α : Type} [DecidableEq κ] (d e : Tab κ α) : Tab κ α :=
  e.foldl (fun acc kv => tabInsert acc kv.1 kv.2) d

/-- Map a function over the values of a dict (keys and order unchanged). -/
def tabMapVals {κ α β : Type} (f : α → β) (d : Tab κ α) : Tab κ β :=
  d.map (fun kv => (kv.1, f kv.2))

/-- `defaultdict(list): d[k].append(x)` — append to the list bound to `k`,
materialising `k ↦ [x]` when `k` is absent. -/
def tabAppendDD {κ α : Type} [DecidableEq κ] (d : Tab κ (List α)) (key : κ) (x : α) : Tab κ (List α) :=
  match tabLookup d key with
  | some l => tabInsert d key (l ++ [x])
  | none => tabInsert d key [x]

/-- `defaultdict.__getitem__`: return the bound list, or bind `k ↦ []` and
return `[]` when `k` is absent.  Returns (value, dict after the access). -/
def tabGetDD {κ α : Type} [DecidableEq κ] (d : Tab κ (List α)) (key : κ) : List α × Tab κ (List α) :=
  match tabLookup d key with
  | some l => (l, d)
  | none => ([], tabInsert d key [])

/-- Sum of the values of a table of counts (`sum(v.values())`). -/
def valuesSum {κ : Type} (d : Tab κ Nat) : Nat :=
  (d.map Prod.snd).sum

/-- One step of `collections.Counter`: count one more occurrence of `w`. -/
def counterAdd {κ : Type} [DecidableEq κ] (d : Tab κ Nat) (w : κ) : Tab κ Nat :=
  match tabLookup d w with
  | some c => tabInsert d w (c + 1)
  | none => tabInsert d w 1

/-- `collections.Counter(l)`: frequency table of a list, first-seen order. -/
def counterOf {κ : Type} [DecidableEq κ] (l : List κ) : Tab κ Nat :=
  l.foldl counterAdd []

/-- The two languages the pipeline alternates between.  The source passes the
strings "french"/"german"; any other string crashes on unbound locals, so the
model restricts to the two meaningful values. -/
inductive Lang
  | french
  | german
  deriving DecidableEq

def splitTokensAux : List Char → List Char → List String
  | [], cur => if cur = [] then [] else [String.mk cur.reverse]
  | c :: rest, cur =>
    if c = ' ' then
      if cur = [] then splitTokensAux rest []
      else String.mk cur.reverse :: splitTokensAux rest []
    else splitTokensAux rest (c :: cur)

/-- `str.split()`: whitespace tokenization dropping empty fields (the corpus
uses single spaces; implemented structurally so it computes in the kernel). -/
def pySplit (s : String) : List String :=
  splitTokensAux s.toList []

/-- Number of whitespace tokens (`len(s.split())`). -/
def tokCount (s : String) : Nat :=
  (pySplit s).length

def splitSepAux (sep : List Char) : Nat → List Char → List Char → List (List Char)
  | 0, l, cur => [cur.reverse ++ l]
  | _ + 1, [], cur => [cur.reverse]
  | fuel + 1, c :: rest, cur =>
    if sep ≠ [] ∧ sep.isPrefixOf (c :: rest) then
      cur.reverse :: splitSepAux sep fuel (rest.drop (sep.length - 1)) []
    else splitSepAux sep fuel rest (c :: cur)

/-- `s.split(sep)` for a non-empty separator (every step consumes at least
one character, so the fuel never runs out). -/
def pySplitSep (s sep : String) : List String :=
  (splitSepAux sep.toList (s.toList.length + 1) s.toList []).map String.mk

def joinWithAux (sep : List Char) : List (List Char) → List Char
  | [] => []
  | [x] => x
  | x :: rest => x ++ sep ++ joinWithAux sep rest

/-- `sep.join(parts)`. -/
def joinWith (sep : String) (parts : List String) : String :=
  String.mk (joinWithAux sep.toList (parts.map String.toList))

/-- `s.replace(pat, rep)` for a non-empty pattern: split on the pattern and
re-join with the replacement (Python replaces non-overlapping occurrences
left to right, which is the same). -/
def pyReplace (s pat rep : String) : String :=
  joinWith rep (pySplitSep s pat)

/-- `str.isnumeric()` restricted to ASCII digits, which is all the alignment
files contain. -/
def pyIsNumeric (s : String) : Bool :=
  decide (s.toList ≠ []) && s.toList.all Char.isDigit

def digitsToNatAux : List Char → Nat → Nat
  | [], acc => acc
  | c :: rest, acc => digitsToNatAux rest (acc * 10 + (c.toNat - 48))

/-- `int(s)` for well-formed decimal input (malformed alignment tokens raise
in Python and are outside the modelled input space). -/
def pyInt (s : String) : Nat :=
  digitsToNatAux s.toList 0

def insertSorted (n : Nat) : List Nat → List Nat
  | [] => [n]
  | m :: rest => if n ≤ m then n :: m :: rest else m :: insertSorted n rest

/-- `list.sort()` on the (distinct) position lists: ascending order. -/
def sortNat (l : List Nat) : List Nat :=
  l.foldr insertSorted []

def dedupFirstAux {α : Type} [DecidableEq α] : List α → List α → List α
  | [], _ => []
  | x :: rest, seen =>
    if x ∈ seen then dedupFirstAux rest seen else x :: dedupFirstAux rest (x :: seen)

/-- `pd.unique(l).tolist()`: de-duplicate keeping the first occurrence. -/
def dedupFirst {α : Type} [DecidableEq α] (l : List α) : List α :=
  dedupFirstAux l []

/-- `abs(a - b)` for the sorted position lists. -/
def natGap (a b : Nat) : Nat :=
  max a b - min a b

/-- Rational division in a kernel-computable form (`Rat.divInt` on the
cross-multiplied numerator and denominator); proved equal to field division
below, and used wherever the source divides two numbers. -/
def ratDiv (a b : ℚ) : ℚ :=
  Rat.divInt (a.num * b.den) (a.den * b.num)

/-- The literal 0.18 of filter_unlikely_alignments, as an exact rational
(the Python float is within 3e-18 of this value; no comparison in scope is
that close to the threshold). -/
def pointEighteen : ℚ :=
  mkRat 18 100

def strContainsAux (pat : List Char) : List Char → Bool
  | [] => decide (pat = [])
  | c :: rest => pat.isPrefixOf (c :: rest) || strContainsAux pat rest

/-- Python substring test `pat in hay`. -/
def strContains (hay pat : String) : Bool :=
  strContainsAux pat.toList hay.toList

def strIndexOfAux (pat : List Char) : List Char → Nat → Option Nat
  | [], n => if pat = [] then some n else none
  | c :: rest, n => if pat.isPrefixOf (c :: rest) then some n else strIndexOfAux pat rest (n + 1)

/-- `hay.index(pat)`: character index of the first occurrence. -/
def strIndexOf (hay pat : String) : Option Nat :=
  strIndexOfAux pat.toList hay.toList 0

/-- `string.punctuation` (braces written as escapes). -/
def punctuationStr : String :=
  "!\"#$%&'()*+,-./:;<=>?@[\\]^_`\x7b|\x7d~"

/-- `w in string.punctuation`: a substring test in Python, true for single
punctuation characters (and for contiguous runs of them). -/
def pyInPunct (w : String) : Bool :=
  strContains punctuationStr w

/-- `str.isalpha` approximated over the Latin ranges this corpus uses
(ASCII letters, Latin-1 letters, Latin Extended-A, excluding the two
arithmetic signs in between). -/
def pyAlphaChar (c : Char) : Bool :=
  c.isAlpha || (decide (0xC0 ≤ c.val) && decide (c.val ≤ 0x17F) &&
    decide (c.val ≠ 0xD7) && decide (c.val ≠ 0xF7))

def pyIsAlpha (s : String) : Bool :=
  !s.isEmpty && s.toList.all pyAlphaChar

/-- processing_filtering.filter_most_common_conns: deep-copies the table and
deletes every target whose probability is below the word/phrase threshold.
The per-entry deletions amount to keeping the entries that fail both
deletion tests; source keys are never removed. -/
def filterMostCommonConns (dictionary : Tab String (Tab String ℚ))
    (wordThreshold phraseThreshold : ℚ) : Tab String (Tab String ℚ) :=
  tabMapVals (fun target => target.filter (fun cc =>
    !(decide (tokCount cc.1 = 1) && decide (cc.2 < wordThreshold)) &&
    !(decide (1 < tokCount cc.1) && decide (cc.2 < phraseThreshold)))) dictionary

/-- processing_filtering.alignment_probabilities: per source key, tally the
observations with `Counter` and divide each count by the total count of the
key (`count / sum(v.values())`). -/
def alignmentProbabilities (alignments : Tab String (List String)) : Tab String (Tab String ℚ) :=
  let conn := alignments.foldl
    (fun t kv => tabInsert t kv.1 (counterOf (tabLookupD alignments kv.1 []))) []
  tabMapVals (fun v => tabMapVals (fun (count : Nat) => ratDiv (count : ℚ) (valuesSum v : ℚ)) v) conn

/-- processing_filtering.conn_count when `alignments` is a `defaultdict(list)`
(its only use in find_conns): `count[key] = Counter(alignments[key])` never
raises, but the defaultdict access inserts `key ↦ []` for every missing key.
Returns the count table together with the mutated alignments argument. -/
def connCountDD (alignments : Tab String (List String)) (lex : List String) :
    Tab String (Tab String Nat) × Tab String (List String) :=
  lex.foldl (fun st key =>
    let g := tabGetDD st.2 key
    (tabInsert st.1 key (counterOf g.1), g.2)) ([], alignments)

/-- Inner loop of remove_low_counts over the targets of one source key.
`count_dict[source]` is evaluated inside the target loop, so a source with no
targets never touches the count table; a missing source key raises KeyError.
A missing target inside a present source is a `Counter` lookup and yields 0. -/
def removeLowCountsInner (countDict : Tab String (Tab String Nat)) (source : String)
    (wordCount phraseCount : Nat) :
    List (String × ℚ) → Tab String ℚ → Except String (Tab String ℚ)
  | [], filtered => .ok filtered
  | (target, _) :: rest, filtered =>
    match tabLookup countDict source with
    | none => .error "KeyError"
    | some cnt =>
      let low :=
        if tokCount target = 1 then tabLookupD cnt target 0 < wordCount
        else tabLookupD cnt target 0 < phraseCount
      removeLowCountsInner countDict source wordCount phraseCount rest
        (if low then tabErase filtered target else filtered)

def removeLowCountsGo (countDict : Tab String (Tab String Nat)) (wordCount phraseCount : Nat) :
    List (String × Tab String ℚ) → Except String (Tab String (Tab String ℚ))
  | [] => .ok []
  | (source, alignment) :: rest =>
    match removeLowCountsInner countDict source wordCount phraseCount alignment alignment with
    | .error e => .error e
    | .ok inner =>
      match removeLowCountsGo countDict wordCount phraseCount rest with
      | .error e => .error e
      | .ok tail => .ok ((source, inner) :: tail)

/-- processing_filtering.remove_low_counts: deep-copies the probability table
and pops every target whose absolute count is below the word/phrase minimum.
Looking up a source key absent from `count_dict` raises KeyError. -/
def removeLowCounts (probDict : Tab String (Tab String ℚ)) (countDict : Tab String (Tab String Nat))
    (wordCount phraseCount : Nat) : Except String (Tab String (Tab String ℚ)) :=
  removeLowCountsGo countDict wordCount phraseCount probDict

/-- Target-side stop list used by filter_unlikely_alignments when the round
language is French (German function words). -/
def frenchRoundDelWords : List String :=
  ["ich", "du", "er", "sie", "es", "wir", "ihr", "sie",
   "das", "des", "die", "der", "einer", "eines", "eine",
   "ist", "dem", "sich", "unseres", "ein"]

/-- Target-side stop list used by filter_unlikely_alignments when the round
language is German (French function words). -/
def germanRoundDelWords : List String :=
  ["l'", "ce"]

def roundDelWords : Lang → List String
  | .french => frenchRoundDelWords
  | .german => germanRoundDelWords

/-- filter_unlikely_alignments, first loop: drop every phrase whose final
token is a stop word, keeping the phrase list in sync (`list.remove` drops
the first occurrence). -/
def unlikelyPhaseA (delWords : List String) :
    List String → Tab String ℚ × List String → Tab String ℚ × List String
  | [], st => st
  | phrase :: rest, (d, fp) =>
    if (pySplit phrase).getLastD "" ∈ delWords then
      unlikelyPhaseA delWords rest (tabErase d phrase, fp.erase phrase)
    else
      unlikelyPhaseA delWords rest (d, fp)

/-- filter_unlikely_alignments, inner single-word loop: a single word that is
a token of a surviving phrase and has probability below 0.18 is dropped.
`alignments[source][single]` is only read after the membership test, so the
default-0 read is never the deciding factor. -/
def unlikelyPhaseBInner (single : String) :
    List String → Tab String ℚ → Tab String ℚ
  | [], d => d
  | phrase :: rest, d =>
    unlikelyPhaseBInner single rest
      (if single ∈ pySplit phrase ∧ tabContains d single = true ∧
          tabLookupD d single 0 < pointEighteen then tabErase d single else d)

/-- filter_unlikely_alignments, second loop over the single words. -/
def unlikelyPhaseB (delWords : List String) :
    List String → List String → Tab String ℚ → Tab String ℚ
  | [], _, d => d
  | single :: rest, fp, d =>
    let d1 := if single ∈ delWords ∧ tabContains d single = true then tabErase d single else d
    unlikelyPhaseB delWords rest fp (unlikelyPhaseBInner single fp d1)

/-- filter_unlikely_alignments, inner nested-phrase loop: a phrase that is a
substring of a longer surviving phrase is dropped when it is improbable on
its own and not comparably probable to the longer phrase.
`alignments[source][out_phrase]` is guaranteed present by the running
invariant (the phrase list mirrors the table); the 0-default read is
unreachable. -/
def unlikelyPhaseCInner (inPhrase : String) :
    List String → Tab String ℚ × List String → Tab String ℚ × List String
  | [], st => st
  | outPhrase :: rest, (d, fp) =>
    unlikelyPhaseCInner inPhrase rest
      (if inPhrase ≠ outPhrase ∧ outPhrase ∈ fp ∧ strContains outPhrase inPhrase = true ∧
          tokCount inPhrase ≠ tokCount outPhrase ∧ tabContains d inPhrase = true ∧
          tabLookupD d inPhrase 0 < pointEighteen ∧
          ratDiv (tabLookupD d inPhrase 0) (tabLookupD d outPhrase 0) < 3 then
        (tabErase d inPhrase, fp.erase inPhrase)
      else (d, fp))

def unlikelyPhaseC :
    List String → List String → Tab String ℚ × List String → Tab String ℚ × List String
  | [], _, st => st
  | inPhrase :: rest, snapshot, st =>
    unlikelyPhaseC rest snapshot (unlikelyPhaseCInner inPhrase snapshot st)

/-- filter_unlikely_alignments restricted to one source key.  The single and
phrase lists are computed from the table before any deletion, as in the
source. -/
def unlikelyPerSource (delWords : List String) (d : Tab String ℚ) : Tab String ℚ :=
  let singles := (tabKeys d).filter (fun s => tokCount s = 1)
  let phrases := (tabKeys d).filter (fun s => 1 < tokCount s)
  let stA := unlikelyPhaseA delWords phrases (d, phrases)
  let d1 := unlikelyPhaseB delWords singles stA.2 stA.1
  (unlikelyPhaseC stA.2 stA.2 (d1, stA.2)).1

/-- processing_filtering.filter_unlikely_alignments.  The deletions are
performed in place on the caller's table in the source; the value computed
here is that mutated table (each source key is processed independently). -/
def filterUnlikelyAlignments (alignments : Tab String (Tab String ℚ)) (lang : Lang) :
    Tab String (Tab String ℚ) :=
  tabMapVals (unlikelyPerSource (roundDelWords lang)) alignments

/-- The comparison condition shared verbatim by remove_incomplete_phrases and
complete_phrases: `compare` is a complete (gap-free, all-alphabetic, ≥ 3
token) phrase with the same first and last token as the gapped `target`, and
differs from `target` with its first gap marker removed. -/
def incompleteCond (target compare : String) : Bool :=
  let targetTokens := pySplit target
  let targetComplete := pySplit compare
  let cleanTarget := targetTokens.erase "..."
  decide (3 ≤ targetComplete.length) && !(strContains compare "...") &&
  decide (targetTokens.headD "" = targetComplete.headD "") &&
  decide (targetTokens.getLastD "" = targetComplete.getLastD "") &&
  targetComplete.all pyIsAlpha &&
  decide (cleanTarget ≠ targetComplete)

/-- processing_filtering.remove_incomplete_phrases: a gapped target is
dropped from the deep copy when some other target of the same source key
satisfies `incompleteCond`.  (Python removes the first "..." element with
`list.remove`; for pipeline-produced targets the marker is always a token.) -/
def removeIncompletePhrases (alignments : Tab String (Tab String ℚ)) :
    Tab String (Tab String ℚ) :=
  tabMapVals (fun targets =>
    targets.filter (fun tv =>
      !(decide (3 ≤ (pySplit tv.1).length) && strContains tv.1 "..." &&
        (tabKeys targets).any (fun compare => incompleteCond tv.1 compare)))) alignments

/-- Single-word stop list of filter_single_words when the round language is
French (German words). -/
def frenchSingleDelWords : List String :=
  ["dass", "wenn", "auf", "vor", "in", "mit"]

/-- Single-word stop list of filter_single_words when the round language is
German (French words). -/
def germanSingleDelWords : List String :=
  ["avec", "dans", "devant", "par", "bien", "de",
   "quoi", "même", "tout", "que", "qu'", "en", "est", "ce",
   "sous", "qui", "s'", "si", "lors", "pendant", "durant"]

def singleDelWords : Lang → List String
  | .french => frenchSingleDelWords
  | .german => germanSingleDelWords

/-- processing_filtering.filter_single_words: delete in place every
single-token target found in the per-language stop list. -/
def filterSingleWords (alignments : Tab String (Tab String ℚ)) (lang : Lang) :
    Tab String (Tab String ℚ) :=
  tabMapVals (fun d =>
    d.filter (fun kv =>
      !(decide (tokCount kv.1 = 1) && decide (kv.1 ∈ singleDelWords lang)))) alignments

def germanPronouns : List String :=
  ["ich", "du", "er", "sie", "es", "wir", "ihr", "sie"]

def frenchPronouns : List String :=
  ["j'", "je", "tu", "il", "elle", "on", "nous", "vous", "ils", "elles"]

def pronounsOf : Lang → List String
  | .german => germanPronouns
  | .french => frenchPronouns

/-- processing_filtering.remove_pronouns: drop from the deep copy every
target having a token in the pronoun list of `lang`. -/
def removePronouns (alignments : Tab String (Tab String ℚ)) (lang : Lang) :
    Tab String (Tab String ℚ) :=
  tabMapVals (fun targets =>
    targets.filter (fun tv =>
      !((pySplit tv.1).any (fun tok => decide (tok ∈ pronounsOf lang))))) alignments

/-- processing_filtering.remove_punct_phrases: strip a leading and a trailing
punctuation token (the trailing test looks at the original last token), then
drop a gap marker left at an edge (`list.remove` takes the first
occurrence). -/
def removePunctPhrases (tokens : List String) : List String :=
  if 1 < tokens.length then
    let np1 := if pyInPunct (tokens.headD "") then tokens.drop 1 else tokens
    let np2 := if pyInPunct (tokens.getLastD "") then np1.dropLast else np1
    if np2 ≠ [] then
      if np2.headD "" = "..." ∨ np2.getLastD "" = "..." then np2.erase "..." else np2
    else np2
  else tokens

/-- processing_filtering.remove_punct_values: rebuild the table into a fresh
defaultdict, mapping every punctuation token to the empty string.  The guard
`if word` means an already-empty observation is appended unchanged, and a
source key whose observation list is empty is never materialised in the
output. -/
def punctNorm (word : String) : String :=
  if word ≠ "" ∧ pyInPunct word = true then "" else word

def removePunctValues (dictionary : Tab String (List String)) : Tab String (List String) :=
  dictionary.foldl (fun acc sv =>
    sv.2.foldl (fun acc2 word => tabAppendDD acc2 sv.1 (punctNorm word)) acc) []

/-- Replace the last element (`phrase[-1] = x`; call sites guarantee the
phrase is non-empty). -/
def setLast (l : List String) (x : String) : List String :=
  l.dropLast ++ [x]

/-- processing_filtering.remove_contractions: rewrite a trailing fused
preposition+article to its bare preposition and join with spaces. -/
def removeContractions (phrase : List String) (lang : Lang) : String :=
  let l1 := match lang with
    | .french =>
      let a := if phrase.getLastD "" ∈ ["d'", "du", "des"] then setLast phrase "de" else phrase
      if a.getLastD "" ∈ ["aux", "au"] then setLast a "à" else a
    | .german =>
      let a := if phrase.getLastD "" ∈ ["zur", "zum"] then setLast phrase "zu" else phrase
      if a.getLastD "" ∈ ["vom"] then setLast a "von" else a
  joinWith " " l1

/-- complete_phrases, loop over the lexicon for one gapped target: the first
lexicon entry satisfying `incompleteCond` pops the target and re-keys its
probability; later matches find the target gone (`KeyError`) and are
skipped. -/
def completePhrasesLex (target : String) :
    List String → Tab String ℚ → Tab String ℚ
  | [], d => d
  | compareConn :: rest, d =>
    let d2 :=
      if incompleteCond target compareConn then
        match tabLookup d target with
        | some p => tabInsert (tabErase d target) compareConn p
        | none => d
      else d
    completePhrasesLex target rest d2

def completePhrasesInner (lex : List String) :
    List String → Tab String ℚ → Tab String ℚ
  | [], d => d
  | target :: rest, d =>
    let d2 :=
      if 3 ≤ (pySplit target).length ∧ strContains target "..." = true then
        completePhrasesLex target lex d
      else d
    completePhrasesInner lex rest d2

/-- processing_filtering.complete_phrases: replace a surviving gapped target
by a matching complete connective from the full target-language lexicon,
carrying the probability over. -/
def completePhrases (alignments : Tab String (Tab String ℚ)) (lex : List String) :
    Tab String (Tab String ℚ) :=
  tabMapVals (fun targets => completePhrasesInner lex (tabKeys targets) targets) alignments

/-- Heap effect of filter_most_common_conns: it deep-copies its argument and
deletes only from the copy, so the call returns the filtered copy and leaves
the caller's table untouched.  (result, argument object after the call). -/
def filterMostCommonConnsEffect (dictionary : Tab String (Tab String ℚ))
    (wordThreshold phraseThreshold : ℚ) :
    Tab String (Tab String ℚ) × Tab String (Tab String ℚ) :=
  (filterMostCommonConns dictionary wordThreshold phraseThreshold, dictionary)

/-- Heap effect of filter_single_words: all deletions happen in place on the
caller's table and that same object is returned, so after the call the
argument holds the filtered value.  (result, argument object after the
call). -/
def filterSingleWordsEffect (alignments : Tab String (Tab String ℚ)) (lang : Lang) :
    Tab String (Tab String ℚ) × Tab String (Tab String ℚ) :=
  (filterSingleWords alignments lang, filterSingleWords alignments lang)

/-- Heap effect of filter_unlikely_alignments: in-place deletions, the
argument aliases the result.  (result, argument object after the call). -/
def filterUnlikelyAlignmentsEffect (alignments : Tab String (Tab String ℚ)) (lang : Lang) :
    Tab String (Tab String ℚ) × Tab String (Tab String ℚ) :=
  (filterUnlikelyAlignments alignments lang, filterUnlikelyAlignments alignments lang)

/-- `list.insert(i, x)` (appends when the index is past the end). -/
def insertAt {α : Type} : List α → Nat → α → List α
  | l, 0, x => x :: l
  | [], _ + 1, x => [x]
  | y :: rest, n + 1, x => y :: insertAt rest n x

/-- An element of a position list under gap insertion: an integer position or
an inserted string marker (`isinstance(x, int)` distinguishes the two). -/
inductive GTok
  | num (n : Nat)
  | mark (s : String)
  deriving DecidableEq

/-- The marker inserted for a gap of exactly 2: a comma when the target-side
token one past the first position is a comma, else the gap marker.
(`target_tok[new_phrase[pos]+1]` can raise IndexError in Python for an
alignment pointing at the last token; the corpus inputs never do, and the
model reads a non-comma default.) -/
def gapItemFor (targetTok : List String) (a : Nat) : GTok :=
  if targetTok.getD (a + 1) "" = "," then GTok.mark "," else GTok.mark "..."

/-- One iteration of the while-loop gap insertion of parse_phrase_alignments
(and parse_discontinuous, whose `elif abs > 1` fires exactly when the gap
exceeds 2 because the `== 2` branch is tested first). -/
def gapStepPhrase (targetTok : List String) (l : List GTok) (pos : Nat) : List GTok :=
  match l[pos]?, l[pos + 1]? with
  | some (GTok.num a), some (GTok.num b) =>
    if natGap a b = 2 then insertAt l (pos + 1) (gapItemFor targetTok a)
    else if 2 < natGap a b then insertAt l (pos + 1) (GTok.mark "...")
    else l
  | _, _ => l

def whileGapsAux (targetTok : List String) : Nat → List GTok → Nat → List GTok
  | 0, l, _ => l
  | fuel + 1, l, pos =>
    if pos < l.length - 1 then whileGapsAux targetTok fuel (gapStepPhrase targetTok l pos) (pos + 1)
    else l

/-- The `while pos < len(new_phrase) - 1` gap-insertion loop: the bound is
re-evaluated every iteration, and `pos` advances by one whether or not a
marker was inserted.  The fuel is sufficient because each iteration moves
`pos` one step and grows the list by at most one. -/
def whileGaps (targetTok : List String) (l : List GTok) : List GTok :=
  whileGapsAux targetTok (2 * l.length + 1) l 0

/-- The specified walk: visit every adjacent pair of the position list and
place the gap/comma item between the two positions whenever the pair
qualifies. -/
def markGaps (targetTok : List String) : List Nat → List GTok
  | [] => []
  | [a] => [GTok.num a]
  | a :: b :: rest =>
    GTok.num a ::
      ((if natGap a b = 2 then [gapItemFor targetTok a]
        else if 2 < natGap a b then [GTok.mark "..."] else []) ++
        markGaps targetTok (b :: rest))

/-- One iteration of the German-keyed for-range gap loop of parse_alignments
(threshold: gap exceeding 1, gap marker only). -/
def gapStepDeStr (l : List String) (pos : Nat) : List String :=
  match l[pos]?, l[pos + 1]? with
  | some a, some b =>
    if pyIsNumeric a && pyIsNumeric b && decide (1 < natGap (pyInt a) (pyInt b)) then
      insertAt l (pos + 1) "..."
    else l
  | _, _ => l

/-- The German-keyed gap loop of parse_alignments: `for pos in
range(len(v)-1)` fixes the iteration range from the original length while
`insert` shifts later elements. -/
def forRangeGapsDe (v : List String) : List String :=
  (List.range (v.length - 1)).foldl gapStepDeStr v

/-- One iteration of the French-keyed for-range gap loop of parse_alignments
(gap of exactly 2: comma inspection on the German tokens; gap above 2: gap
marker). -/
def gapStepFrStr (german : List String) (l : List String) (pos : Nat) : List String :=
  match l[pos]?, l[pos + 1]? with
  | some a, some b =>
    if pyIsNumeric a && pyIsNumeric b then
      if natGap (pyInt a) (pyInt b) = 2 then
        if german.getD (pyInt a + 1) "" = "," then insertAt l (pos + 1) ","
        else insertAt l (pos + 1) "..."
      else if 2 < natGap (pyInt a) (pyInt b) then insertAt l (pos + 1) "..."
      else l
    else l
  | _, _ => l

def forRangeGapsFr (german : List String) (v : List String) : List String :=
  (List.range (v.length - 1)).foldl (gapStepFrStr german) v

/-- `a.split("-")` giving the two position fields of one alignment token. -/
def pairOf (a : String) : String × String :=
  ((pySplitSep a "-").getD 0 "", (pySplitSep a "-").getD 1 "")

/-- The per-line body of parse_all_alignments.parse_alignments, accumulating
into the two direction tables.  Mirrors the source exactly, including the
quirk that when a trailing contraction was rewritten the resolved value is a
Python string and `" ".join(v)` then interleaves spaces between its
characters. -/
def parseAlignmentsLine (accDe accFr : Tab String (List String)) (idx de fr : String) :
    Tab String (List String) × Tab String (List String) :=
  let german := pySplit de
  let french := pySplit fr
  let alignment := pySplit idx
  let pair := alignment.map pairOf
  let deMissing := pair.foldl
    (fun l p => if pyIsNumeric p.1 then l.erase (pyInt p.1) else l) (List.range german.length)
  let frMissing := pair.foldl
    (fun l p => if pyIsNumeric p.2 then l.erase (pyInt p.2) else l) (List.range french.length)
  let accDe1 := deMissing.foldl (fun acc m => tabAppendDD acc (german.getD m "") "") accDe
  let accFr1 := frMissing.foldl (fun acc m => tabAppendDD acc (french.getD m "") "") accFr
  let phraseAlignFrR := pair.foldl (fun acc p => tabAppendDD acc p.2 p.1)
    ([] : Tab String (List String))
  let phraseAlignDeR := pair.foldl (fun acc p => tabAppendDD acc p.1 p.2)
    ([] : Tab String (List String))
  let phraseAlignDe := phraseAlignFrR.foldl (fun acc kv => tabAppendDD acc kv.2 kv.1)
    ([] : Tab (List String) (List String))
  let phraseAlignFr := phraseAlignDeR.foldl (fun acc kv => tabAppendDD acc kv.2 kv.1)
    ([] : Tab (List String) (List String))
  let phraseAlignDe2 := tabMapVals (fun v => if 1 < v.length then forRangeGapsDe v else v)
    phraseAlignDe
  let phraseAlignFr2 := tabMapVals (fun v => if 1 < v.length then forRangeGapsFr german v else v)
    phraseAlignFr
  let accDe2 := phraseAlignDe2.foldl (fun acc kv =>
    let k0 := kv.1.map (fun i => if pyIsNumeric i then german.getD (pyInt i) "" else i)
    let v0 := kv.2.map (fun i => if pyIsNumeric i then french.getD (pyInt i) "" else i)
    let k1 := removePunctPhrases k0
    let v1 := removePunctPhrases v0
    let joined :=
      if v1 ≠ [] ∧ v1.getLastD "" ∈ ["d'", "du", "des", "aux", "au"] then
        joinWith " " ((removeContractions v1 Lang.french).toList.map (fun c => String.mk [c]))
      else joinWith " " v1
    tabAppendDD acc (joinWith " " k1) joined) accDe1
  let accFr2 := phraseAlignFr2.foldl (fun acc kv =>
    let k0 := kv.1.map (fun i => if pyIsNumeric i then french.getD (pyInt i) "" else i)
    let v0 := kv.2.map (fun i => if pyIsNumeric i then german.getD (pyInt i) "" else i)
    let k1 := removePunctPhrases k0
    let v1 := removePunctPhrases v0
    let joined :=
      if v1 ≠ [] ∧ v1.getLastD "" ∈ ["zur", "zum", "vom"] then
        joinWith " " ((removeContractions v1 Lang.german).toList.map (fun c => String.mk [c]))
      else joinWith " " v1
    tabAppendDD acc (joinWith " " k1) joined) accFr1
  (accDe2, accFr2)

/-- parse_all_alignments.parse_alignments over a corpus of (alignment line,
German line, French line) triples. -/
def parseAlignments (corpus : List (String × String × String)) :
    Tab String (List String) × Tab String (List String) :=
  corpus.foldl (fun acc line => parseAlignmentsLine acc.1 acc.2 line.1 line.2.1 line.2.2) ([], [])

/-- `source_tok[pos:pos+len(phrase)] == phrase`. -/
def sliceEq (sourceTok phrase : List String) (pos : Nat) : Bool :=
  decide ((sourceTok.drop pos).take phrase.length = phrase)

/-- The exact token-position spans of a phrase inside a tokenized sentence
(`for pos in range(0, len(source_tok) - len(phrase) + 1)`). -/
def phraseOccurrences (sourceTok phrase : List String) : List (List Nat) :=
  ((List.range (sourceTok.length - phrase.length + 1)).filter
    (fun pos => sliceEq sourceTok phrase pos)).map
    (fun pos => List.range' pos phrase.length)

/-- Project a source position range through the raw index pairs to the list
of aligned opposite-side positions, in pair order per source position. -/
def projectPositions (pair : List (Nat × Nat)) (lang : Nat) (posRange : List Nat) : List Nat :=
  posRange.foldl (fun acc wordPos =>
    acc ++ (if lang = 1 then (pair.filter (fun p => decide (p.1 = wordPos))).map Prod.snd
            else (pair.filter (fun p => decide (p.2 = wordPos))).map Prod.fst)) []

/-- The shared target-side span construction of parse_phrase_alignments and
parse_discontinuous: de-duplicate keeping first occurrence, sort when more
than one position remains and run the while-loop gap insertion, resolve
positions to target tokens (an out-of-range position would raise IndexError
in Python and resolves to "" here), strip edge punctuation, rewrite a
trailing contraction, join, and collapse a comma before a gap marker. -/
def buildTargetSpan (targetTok : List String) (lang : Nat) (positionsRaw : List Nat) : String :=
  let uniq := dedupFirst positionsRaw
  let toks :=
    if 1 < uniq.length then whileGaps targetTok ((sortNat uniq).map GTok.num)
    else uniq.map GTok.num
  let resolved := toks.map (fun t => match t with
    | GTok.num pos => targetTok.getD pos ""
    | GTok.mark s => s)
  let np := removePunctPhrases resolved
  let contractions := ["d'", "du", "des", "aux", "au", "zur", "zum", "vom"]
  let joined :=
    if np ≠ [] ∧ np.getLastD "" ∈ contractions then
      if lang = 1 then removeContractions np Lang.french else removeContractions np Lang.german
    else joinWith " " np
  pyReplace joined ", ..." "..."

/-- `[int(a.split("-")[0]), int(a.split("-")[1])]`. -/
def pairOfNat (a : String) : Nat × Nat :=
  (pyInt ((pySplitSep a "-").getD 0 ""), pyInt ((pySplitSep a "-").getD 1 ""))

/-- Per-line body of parse_all_alignments.parse_phrase_alignments: for each
lexicon phrase occurring as a substring of the raw source-side line, locate
every exact token span, project it through the index pairs, and append the
normalized target span to the phrase's candidate list. -/
def parsePhraseLine (phrases : List String) (lang : Nat) (idx l1 l2 : String)
    (acc : Tab String (List String)) : Tab String (List String) :=
  let lang1 := pySplit l1
  let lang2 := pySplit l2
  let pair := (pySplit idx).map pairOfNat
  let sentence := if lang = 1 then l1 else l2
  let sourceTok := if lang = 1 then lang1 else lang2
  let targetTok := if lang = 1 then lang2 else lang1
  phrases.foldl (fun acc2 phr =>
    if strContains sentence phr = true then
      (phraseOccurrences sourceTok (pySplit phr)).foldl
        (fun acc3 posRange =>
          tabAppendDD acc3 phr (buildTargetSpan targetTok lang (projectPositions pair lang posRange)))
        acc2
    else acc2) acc

/-- parse_all_alignments.parse_phrase_alignments over the corpus. -/
def parsePhraseAlignments (corpus : List (String × String × String)) (phrases : List String)
    (lang : Nat) : Tab String (List String) :=
  corpus.foldl (fun acc line => parsePhraseLine phrases lang line.1 line.2.1 line.2.2 acc) []

/-- Per-line body of parse_all_alignments.parse_discontinuous: both parts of
the `A ... B` pattern must occur in the raw line with A before B; each part
contributes its first not-yet-used token span; the union of projected
positions is normalized exactly as in parse_phrase_alignments (the
`elif abs > 1` branch fires only for gaps above 2 because `== 2` is tested
first, so the span construction is shared). -/
def parseDiscontLine (phrases : List String) (lang : Nat) (idx l1 l2 : String)
    (acc : Tab String (List String)) : Tab String (List String) :=
  let lang1 := pySplit l1
  let lang2 := pySplit l2
  let pair := (pySplit idx).map pairOfNat
  let sentence := if lang = 1 then l1 else l2
  let sourceTok := if lang = 1 then lang1 else lang2
  let targetTok := if lang = 1 then lang2 else lang1
  phrases.foldl (fun acc2 phr =>
    let parts := pySplitSep phr " ... "
    match strIndexOf sentence (parts.getD 0 ""), strIndexOf sentence (parts.getD 1 "") with
    | some i0, some i1 =>
      if i0 < i1 then
        let phraseIndex := parts.foldl (fun pidx part =>
          let partToks := pySplit part
          match (List.range (sourceTok.length - partToks.length + 1)).find?
              (fun pos => sliceEq sourceTok partToks pos &&
                decide (List.range' pos partToks.length ∉ pidx)) with
          | some pos => pidx ++ [List.range' pos partToks.length]
          | none => pidx) []
        let newPhrase := phraseIndex.foldl
          (fun np posRange => np ++ projectPositions pair lang posRange) []
        tabAppendDD acc2 phr (buildTargetSpan targetTok lang newPhrase)
      else acc2
    | _, _ => acc2) acc

/-- parse_all_alignments.parse_discontinuous over the corpus. -/
def parseDiscontAlignments (corpus : List (String × String × String)) (phrases : List String)
    (lang : Nat) : Tab String (List String) :=
  corpus.foldl (fun acc line => parseDiscontLine phrases lang line.1 line.2.1 line.2.2 acc) []

/-- The French connectives removed from the working lexicon every French
round (conn_search.find_conns). -/
def frDel : List String :=
  ["dire que", "dire qu'", "et dire que", "et dire qu'",
   "encore que", "cependant que", "cependant qu'",
   "encore qu'", "si", "s'",
   "en même temps que", "en même temps qu'"]

/-- The German connectives removed from the working lexicon every German
round (conn_search.find_conns). -/
def deDel : List String :=
  ["bloß", "dabei", "mangels", "mithin", "obschon",
   "wenn ... auch", "wiederum", "wobei", "wohingegen",
   "als ob"]

/-- Ghost record of one bootstrap round, used to state round-control
properties: the active language, the lexicon passed in, the stored lexicon
the empty-seed fallback would use, the effective working lexicon after the
fallback and the per-language removals, the round's newly discovered
connectives, and the other language's lexicon after the round. -/
structure RoundInfo where
  lang : Lang
  passed : List String
  stored : List String
  effective : List String
  newConns : List String
  otherLexAfter : List String
  deriving DecidableEq

/-- The state of conn_search.FindAlignments.  `corpus` stands for the three
line-synchronized files; `trace` is ghost instrumentation recording each
round and does not influence any computation. -/
structure FState where
  de_fr : Tab String (List String)
  fr_de : Tab String (List String)
  corpus : List (String × String × String)
  fr_lex : List String
  de_lex : List String
  all_fr_conns : List String
  all_de_conns : List String
  counter : Nat
  de_conn_alignments : Tab String (Tab String ℚ)
  fr_conn_alignments : Tab String (Tab String ℚ)
  de_count : Tab String (Tab String Nat)
  fr_count : Tab String (Tab String Nat)
  trace : List RoundInfo
  deriving DecidableEq

def flipLang : Lang → Lang
  | .french => .german
  | .german => .french

def storedLex (st : FState) : Lang → List String
  | .french => st.fr_lex
  | .german => st.de_lex

def otherLexOf (st : FState) : Lang → List String
  | .french => st.de_lex
  | .german => st.fr_lex

def delListOf : Lang → List String
  | .french => frDel
  | .german => deDel

def langPosOf : Lang → Nat
  | .french => 2
  | .german => 1

/-- The single-word exact-key retrieval of find_conns over a plain dict (the
alignment cache is loaded from JSON): a missing key raises KeyError, which is
caught and skipped. -/
def singleWordRetrieval (alignments : Tab String (List String)) (singleWords : List String) :
    Tab String (List String) :=
  singleWords.foldl (fun na key =>
    match tabLookup alignments key with
    | some v => tabInsert na key v
    | none => na) []

/-- conn_search.find_conns, candidate-collection region: partition the
lexicon, retrieve single-word candidates, scan the corpus for phrases and
discontinuous phrases, count each partition with conn_count (whose
defaultdict accesses inject every lexicon key into its table), and merge
`{**new_alignments, **new_phrase_alignments, **new_discontinuous}`.
Returns (single counts, phrase counts, discontinuous counts, merged
candidates). -/
def candidateStage (alignments : Tab String (List String))
    (corpus : List (String × String × String)) (lex : List String) (langPos : Nat) :
    Tab String (Tab String Nat) × Tab String (Tab String Nat) × Tab String (Tab String Nat)
      × Tab String (List String) :=
  let singleWords := lex.filter (fun w => decide (tokCount w = 1))
  let phrases := lex.filter (fun p => decide (1 < tokCount p) && !(strContains p "..."))
  let discontinuous := lex.filter (fun p => strContains p "...")
  let na0 := singleWordRetrieval alignments singleWords
  let npa := parsePhraseAlignments corpus phrases langPos
  let nd := parseDiscontAlignments corpus discontinuous langPos
  let scPair := connCountDD na0 lex
  let pcPair := connCountDD npa phrases
  let dcPair := connCountDD nd discontinuous
  (scPair.1, pcPair.1, dcPair.1, tabUpdate (tabUpdate scPair.2 pcPair.2) dcPair.2)

/-- The `self.xx_count.update(...)` accumulation of find_conns: three
`dict.update` calls, which REPLACE the value of an existing source key with
the new round's counts. -/
def accumulateCounts (persistent single phrase discont : Tab String (Tab String Nat)) :
    Tab String (Tab String Nat) :=
  tabUpdate (tabUpdate (tabUpdate persistent single) phrase) discont

/-- Commit one round's results to the state (the two symmetric tails of
find_conns), appending the ghost round record. -/
def applyRoundResult (st : FState) (lang : Lang) (counter : Nat)
    (newCount : Tab String (Tab String Nat)) (v9 : Tab String (Tab String ℚ))
    (newConns : List String) (ri : RoundInfo) : FState :=
  match lang with
  | .french =>
    { st with
      counter := counter
      fr_count := newCount
      fr_conn_alignments := tabUpdate st.fr_conn_alignments v9
      de_lex := st.de_lex ++ newConns
      trace := st.trace ++ [ri] }
  | .german =>
    { st with
      counter := counter
      de_count := newCount
      de_conn_alignments := tabUpdate st.de_conn_alignments v9
      fr_lex := st.fr_lex ++ newConns
      trace := st.trace ++ [ri] }

/-- One round of conn_search.FindAlignments.find_conns: seed-lexicon
defaulting and curation, candidate collection, count accumulation,
probability estimation, the filter chain in source order (remove_low_counts
reads the count table as updated this round, since `count_dict` aliases it),
new-connective extraction (`list(set(...))` has unspecified order in Python;
the model keeps first-seen order), and the state commit.  An uncaught
KeyError from remove_low_counts aborts the round. -/
def roundStep (st : FState) (lex0 : List String) (lang : Lang) (wt pt : ℚ) (wc pc : Nat) :
    Except String (FState × RoundInfo) :=
  let alignments := match lang with | .french => st.fr_de | .german => st.de_fr
  let stored := storedLex st lang
  let lex1 := if lex0 = [] then stored else lex0
  let lex := lex1.filter (fun c => decide (c ∉ delListOf lang))
  let otherLex := otherLexOf st lang
  let completeLex := match lang with | .french => st.all_de_conns | .german => st.all_fr_conns
  let stage := candidateStage alignments st.corpus lex (langPosOf lang)
  let newCount := accumulateCounts
    (match lang with | .french => st.fr_count | .german => st.de_count)
    stage.1 stage.2.1 stage.2.2.1
  let v1 := removePunctValues stage.2.2.2
  let v2 := alignmentProbabilities v1
  let v3 := filterMostCommonConns v2 wt pt
  (removeLowCounts v3 newCount wc pc).map (fun v4 =>
    let v5 := filterUnlikelyAlignments v4 lang
    let v6 := removeIncompletePhrases v5
    let v7 := filterSingleWords v6 lang
    let v8 := removePronouns v7 (flipLang lang)
    let v9 := completePhrases v8 completeLex
    let newConns := dedupFirst (v9.foldl (fun ncs kv =>
      kv.2.foldl (fun ncs2 wc2 =>
        if wc2.1 ≠ "" ∧ wc2.1 ∉ otherLex then ncs2 ++ [wc2.1] else ncs2) ncs) [])
    let ri : RoundInfo :=
      { lang := lang, passed := lex0, stored := stored, effective := lex,
        newConns := newConns, otherLexAfter := otherLex ++ newConns }
    (applyRoundResult st lang (st.counter + 1) newCount v9 newConns ri, ri))

/-- The recursive round control of find_conns.  The fuel only rules out the
non-terminating configurations (Python recurses forever when the counter
starts at or above the limit, e.g. limit = 0); with the counter at 0 a fuel
of `limit` is exact. -/
def findConnsGo (wt pt : ℚ) (wc pc : Nat) (limit : Nat) :
    Nat → FState → List String → Lang → Except String FState
  | 0, _, _, _ => .error "fuel"
  | fuel + 1, st, lex0, lang =>
    match roundStep st lex0 lang wt pt wc pc with
    | .error e => .error e
    | .ok (st2, ri) =>
      if st2.counter = limit then .ok st2
      else if st2.counter = 1 then
        findConnsGo wt pt wc pc limit fuel st2 ri.otherLexAfter (flipLang lang)
      else
        findConnsGo wt pt wc pc limit fuel st2 ri.newConns (flipLang lang)

/-- conn_search.FindAlignments.find_conns on a freshly constructed object
(counter 0). -/
def findConns (st : FState) (lex : List String) (lang : Lang) (wt pt : ℚ) (wc pc : Nat)
    (limit : Nat) : Except String FState :=
  findConnsGo wt pt wc pc limit limit st lex lang

/-- The one-line corpus of the end-to-end scenario: Pharaoh line
"0-0 1-2 2-1 3-3 4-4" over the German sentence "er macht es trotzdem ." and
the French sentence "il le fait cependant .". -/
def c4Corpus : List (String × String × String) :=
  [("0-0 1-2 2-1 3-3 4-4", "er macht es trotzdem .", "il le fait cependant .")]

/-- A fresh FindAlignments over the one-line corpus with French seed lexicon
consisting of "cependant", empty German lexicon, and the word alignments
produced by parse_alignments on that corpus. -/
def c4State : FState :=
  { de_fr := (parseAlignments c4Corpus).1
    fr_de := (parseAlignments c4Corpus).2
    corpus := c4Corpus
    fr_lex := ["cependant"]
    de_lex := []
    all_fr_conns := []
    all_de_conns := []
    counter := 0
    de_conn_alignments := []
    fr_conn_alignments := []
    de_count := []
    fr_count := []
    trace := [] }

/-- A one-line corpus in which "cependant" is entirely unaligned (its only
observation is the empty string). -/
def c6Corpus : List (String × String × String) :=
  [("1-1", ". .", "cependant .")]

def c6State : FState :=
  { c4State with
    de_fr := (parseAlignments c6Corpus).1
    fr_de := (parseAlignments c6Corpus).2
    corpus := c6Corpus }

/-- The loop body of conn_count. -/
def connCountStep (st : Tab String (Tab String Nat) × Tab String (List String)) (key : String) :
    Tab String (Tab String Nat) × Tab String (List String) :=
  let g := tabGetDD st.2 key
  (tabInsert st.1 key (counterOf g.1), g.2)

/-- The strictly alternating language sequence of a run of n rounds starting
in `lang`. -/
def altLangs (lang : Lang) : Nat → List Lang
  | 0 => []
  | n + 1 => lang :: altLangs (flipLang lang) n

theorem tabLookup_insert_self {κ α : Type} [DecidableEq κ] (d : Tab κ α) (k : κ) (v : α) :
    tabLookup (tabInsert d k v) k = some v := by
  induction d with
  | nil => simp [tabInsert, tabLookup]
  | cons kv t ih =>
    obtain ⟨k1, v1⟩ := kv
    by_cases h : k1 = k <;> simp [tabInsert, tabLookup, h, ih]

theorem tabLookup_insert_ne {κ α : Type} [DecidableEq κ] (d : Tab κ α) (k k2 : κ) (v : α)
    (h : k ≠ k2) : tabLookup (tabInsert d k v) k2 = tabLookup d k2 := by
  induction d with
  | nil => simp [tabInsert, tabLookup, h]
  | cons kv t ih =>
    obtain ⟨k1, v1⟩ := kv
    by_cases h1 : k1 = k
    · subst h1
      simp [tabInsert, tabLookup, h]
    · simp [tabInsert, tabLookup, h1, ih]

theorem counterAdd_cons_ne {κ : Type} [DecidableEq κ] (k w : κ) (v : Nat) (t : Tab κ Nat)
    (h : k ≠ w) : counterAdd ((k, v) :: t) w = (k, v) :: counterAdd t w := by
  simp only [counterAdd, tabLookup, if_neg h]
  cases tabLookup t w with
  | none => simp [tabInsert, h]
  | some c => simp [tabInsert, h]

theorem valuesSum_counterAdd {κ : Type} [DecidableEq κ] (d : Tab κ Nat) (w : κ) :
    valuesSum (counterAdd d w) = valuesSum d + 1 := by
  induction d with
  | nil => simp [counterAdd, tabLookup, tabInsert, valuesSum]
  | cons kv t ih =>
    obtain ⟨k, v⟩ := kv
    by_cases h : k = w
    · subst h
      simp [counterAdd, tabLookup, tabInsert, valuesSum]
      omega
    · rw [counterAdd_cons_ne k w v t h]
      simp only [valuesSum, List.map_cons, List.sum_cons] at *
      omega

theorem valuesSum_counterOf_aux {κ : Type} [DecidableEq κ] (l : List κ) (d : Tab κ Nat) :
    valuesSum (l.foldl counterAdd d) = valuesSum d + l.length := by
  induction l generalizing d with
  | nil => simp
  | cons x xs ih =>
    simp only [List.foldl_cons, List.length_cons, ih, valuesSum_counterAdd]
    omega

/-- A `Counter` built from a list counts every element: its counts sum to the
length of the list. -/
theorem valuesSum_counterOf {κ : Type} [DecidableEq κ] (l : List κ) :
    valuesSum (counterOf l) = l.length := by
  simpa [counterOf, valuesSum] using valuesSum_counterOf_aux l []

theorem ratDiv_eq_div (a b : ℚ) : ratDiv a b = a / b := by
  rw [ratDiv, Rat.divInt_eq_div]
  rcases eq_or_ne b 0 with hb | hb
  · subst hb; simp
  · have hbn : (b.num : ℚ) ≠ 0 := by exact_mod_cast Rat.num_ne_zero.mpr hb
    have hbd : ((b.den : ℚ)) ≠ 0 := by exact_mod_cast b.den_nz
    have had : ((a.den : ℚ)) ≠ 0 := by exact_mod_cast a.den_nz
    have ha : a * (a.den : ℚ) = a.num := by
      have h1 := Rat.num_div_den a
      nth_rewrite 1 [← h1]
      exact div_mul_cancel₀ _ had
    have hb2 : b * (b.den : ℚ) = b.num := by
      have h1 := Rat.num_div_den b
      nth_rewrite 1 [← h1]
      exact div_mul_cancel₀ _ hbd
    push_cast
    rw [div_eq_div_iff (mul_ne_zero had hbn) hb, ← ha, ← hb2]
    ring

theorem mem_tabKeys_of_lookup {κ α : Type} [DecidableEq κ] (d : Tab κ α) (k : κ) (v : α)
    (h : tabLookup d k = some v) : k ∈ tabKeys d := by
  induction d with
  | nil => simp [tabLookup] at h
  | cons kv t ih =>
    obtain ⟨k1, v1⟩ := kv
    by_cases h1 : k1 = k
    · subst h1
      simp [tabKeys]
    · simp only [tabLookup, if_neg h1] at h
      simp [tabKeys] at ih ⊢
      exact Or.inr (ih h)

theorem tabLookupD_eq_of_lookup {κ α : Type} [DecidableEq κ] (d : Tab κ α) (k : κ) (v dflt : α)
    (h : tabLookup d k = some v) : tabLookupD d k dflt = v := by
  simp [tabLookupD, h]

theorem tabLookup_mapVals {κ α β : Type} [DecidableEq κ] (f : α → β) (d : Tab κ α) (k : κ) :
    tabLookup (tabMapVals f d) k = (tabLookup d k).map f := by
  induction d with
  | nil => simp [tabMapVals, tabLookup]
  | cons kv t ih =>
    obtain ⟨k1, v1⟩ := kv
    simp only [tabMapVals, List.map_cons] at ih ⊢
    by_cases h : k1 = k <;> simp [tabLookup, h, ih]

theorem tabKeys_mapVals {κ α β : Type} (f : α → β) (d : Tab κ α) :
    tabKeys (tabMapVals f d) = tabKeys d := by
  simp [tabKeys, tabMapVals, List.map_map]

/-- The first loop of alignment_probabilities builds, for each key of the
iterated entry list, the `Counter` of the value that `ref` associates to that
key. -/
theorem alignmentProbabilities_fold_lookup (entries : List (String × List String))
    (ref : Tab String (List String)) (acc : Tab String (Tab String Nat)) (k : String) :
    tabLookup (entries.foldl
      (fun t kv => tabInsert t kv.1 (counterOf (tabLookupD ref kv.1 []))) acc) k
    = if k ∈ tabKeys entries then some (counterOf (tabLookupD ref k [])) else tabLookup acc k := by
  induction entries generalizing acc with
  | nil => simp [tabKeys]
  | cons kv rest ih =>
    obtain ⟨k1, v1⟩ := kv
    simp only [List.foldl_cons, ih]
    simp only [tabKeys, List.map_cons, List.mem_cons]
    by_cases hmem : k ∈ List.map Prod.fst rest
    · simp [hmem]
    · by_cases hk : k = k1
      · subst hk
        simp [hmem, tabLookup_insert_self]
      · simp [hmem, hk, tabLookup_insert_ne acc k1 k _ (fun hc => hk hc.symm)]

theorem sum_mapVals_div (d : Tab String Nat) (T : ℚ) :
    ((tabMapVals (fun (c : Nat) => (c : ℚ) / T) d).map Prod.snd).sum = (valuesSum d : ℚ) / T := by
  induction d with
  | nil => simp [tabMapVals, valuesSum]
  | cons kv t ih =>
    simp only [tabMapVals, List.map_cons, List.sum_cons, valuesSum] at ih ⊢
    rw [ih]
    push_cast
    rw [div_add_div_same]

theorem tabMapVals_ratDiv (d : Tab String Nat) (T : ℚ) :
    tabMapVals (fun (c : Nat) => ratDiv (c : ℚ) T) d
      = tabMapVals (fun (c : Nat) => (c : ℚ) / T) d := by
  simp [tabMapVals, ratDiv_eq_div]

/-- C1.  In the probability table produced by alignment_probabilities, every
source key with at least one observation is mapped to the table assigning
each target its count divided by the key's total observation count, and
those probabilities sum exactly to 1 (exact rational arithmetic models the
Python floats). -/
theorem alignmentProbabilities_sum_one (alignments : Tab String (List String)) (k : String)
    (obs : List String) (h : tabLookup alignments k = some obs) (hne : obs ≠ []) :
    ∃ probs, tabLookup (alignmentProbabilities alignments) k = some probs ∧
      probs = tabMapVals (fun (c : Nat) => (c : ℚ) / (obs.length : ℚ)) (counterOf obs) ∧
      (probs.map Prod.snd).sum = 1 := by
  have hmem : k ∈ tabKeys alignments := mem_tabKeys_of_lookup alignments k obs h
  have hD : tabLookupD alignments k [] = obs := tabLookupD_eq_of_lookup alignments k obs [] h
  refine ⟨tabMapVals (fun (c : Nat) => (c : ℚ) / (obs.length : ℚ)) (counterOf obs), ?_, rfl, ?_⟩
  · simp only [alignmentProbabilities, tabLookup_mapVals,
      alignmentProbabilities_fold_lookup alignments alignments [] k, hmem, if_pos, hD]
    simp [valuesSum_counterOf, tabMapVals_ratDiv]
  · rw [sum_mapVals_div, valuesSum_counterOf]
    have h0 : obs.length ≠ 0 := by
      cases obs with
      | nil => exact absurd rfl hne
      | cons a l => simp
    exact div_self (Nat.cast_ne_zero.mpr h0)

/-- Witness for C1 at a concrete input: one key with a single observation. -/
theorem alignmentProbabilities_sum_one_witness :
    ∃ probs, tabLookup (alignmentProbabilities [("cependant", ["trotzdem"])]) "cependant"
        = some probs ∧
      probs = tabMapVals (fun (c : Nat) => (c : ℚ) / ((1 : Nat) : ℚ)) (counterOf ["trotzdem"]) ∧
      (probs.map Prod.snd).sum = 1 :=
  alignmentProbabilities_sum_one [("cependant", ["trotzdem"])] "cependant" ["trotzdem"] rfl
    (by decide)

/-- C2 counterexample: filter_most_common_conns keeps a source key all of
whose targets were removed, as an entry with an empty target map — the key is
not dropped from the output. -/
theorem filterMostCommonConns_keeps_empty_key :
    tabLookup (filterMostCommonConns [("a", [("b", mkRat 1 100)])] (mkRat 2 100) (mkRat 2 100)) "a"
      = some [] := by
  decide

theorem removeLowCountsGo_keeps_keys (countDict : Tab String (Tab String Nat)) (wc pc : Nat)
    (prob : List (String × Tab String ℚ)) (r : Tab String (Tab String ℚ))
    (h : removeLowCountsGo countDict wc pc prob = .ok r) : tabKeys r = tabKeys prob := by
  induction prob generalizing r with
  | nil =>
    simp only [removeLowCountsGo] at h
    cases h
    rfl
  | cons kv rest ih =>
    obtain ⟨source, alignment⟩ := kv
    simp only [removeLowCountsGo] at h
    cases hinner : removeLowCountsInner countDict source wc pc alignment alignment with
    | error e => rw [hinner] at h; cases h
    | ok inner =>
      rw [hinner] at h
      cases htail : removeLowCountsGo countDict wc pc rest with
      | error e => rw [htail] at h; cases h
      | ok tail =>
        rw [htail] at h
        cases h
        simp only [tabKeys, List.map_cons]
        rw [show List.map Prod.fst tail = List.map Prod.fst rest from ih tail htail]

/-- C2 amended.  No filter drops a source key: filter_most_common_conns
preserves the key set of its input for every input, and remove_low_counts
preserves it on every run that does not raise.  A source key whose targets
are all removed therefore remains in the output, bound to an empty target
map. -/
theorem filters_preserve_source_keys (prob : Tab String (Tab String ℚ))
    (count : Tab String (Tab String Nat)) (wc pc : Nat) (r : Tab String (Tab String ℚ))
    (h : removeLowCounts prob count wc pc = .ok r) :
    tabKeys r = tabKeys prob ∧
      ∀ (d : Tab String (Tab String ℚ)) (wt pt : ℚ),
        tabKeys (filterMostCommonConns d wt pt) = tabKeys d := by
  constructor
  · exact removeLowCountsGo_keeps_keys count wc pc prob r h
  · intro d wt pt
    exact tabKeys_mapVals _ d

/-- Witness for the amended C2 at a concrete input (a source key with no
targets passes through remove_low_counts untouched and without consulting the
count table). -/
theorem filters_preserve_source_keys_witness :
    tabKeys [("a", ([] : Tab String ℚ))] = tabKeys [("a", ([] : Tab String ℚ))] ∧
      ∀ (d : Tab String (Tab String ℚ)) (wt pt : ℚ),
        tabKeys (filterMostCommonConns d wt pt) = tabKeys d :=
  filters_preserve_source_keys [("a", [])] [] 0 0 [("a", [])] rfl

/-- C8 counterexample: after a call to filter_single_words, the caller's
argument table no longer holds its original value — the deletions happened in
place on it, so the filter is not a pure function of its input. -/
theorem filterSingleWords_mutates_argument :
    (filterSingleWordsEffect [("k", [("dass", (1 : ℚ))])] Lang.french).2
      ≠ [("k", [("dass", (1 : ℚ))])] := by
  decide

/-- C8 amended.  filter_most_common_conns operates on a deep copy and leaves
its argument unchanged, but filter_single_words and
filter_unlikely_alignments delete in place: after the call the argument
aliases the returned (filtered) table. -/
theorem filter_effects_amended :
    (∀ (d : Tab String (Tab String ℚ)) (wt pt : ℚ),
        (filterMostCommonConnsEffect d wt pt).2 = d) ∧
      (∀ (d : Tab String (Tab String ℚ)) (lang : Lang),
        (filterSingleWordsEffect d lang).2 = (filterSingleWordsEffect d lang).1) ∧
      (∀ (d : Tab String (Tab String ℚ)) (lang : Lang),
        (filterUnlikelyAlignmentsEffect d lang).2 = (filterUnlikelyAlignmentsEffect d lang).1) :=
  ⟨fun _ _ _ => rfl, fun _ _ => rfl, fun _ _ => rfl⟩

theorem getElemAppendMid {α : Type} (front : List α) (x : α) (rest : List α) :
    (front ++ x :: rest)[front.length]? = some x := by
  induction front with
  | nil => simp
  | cons y f ih => simpa using ih

theorem getElemAppendMid2 {α : Type} (front : List α) (x y : α) (rest : List α) :
    (front ++ x :: y :: rest)[front.length + 1]? = some y := by
  have h := getElemAppendMid (front ++ [x]) y rest
  simpa [List.append_assoc] using h

theorem insertAt_append_succ {α : Type} (front : List α) (x : α) (rest : List α) (m : α) :
    insertAt (front ++ x :: rest) (front.length + 1) m = front ++ x :: m :: rest := by
  induction front with
  | nil => simp [insertAt]
  | cons y f ih => simpa [insertAt] using ih

theorem gapItemFor_is_mark (tt : List String) (a : Nat) :
    ∃ s, gapItemFor tt a = GTok.mark s := by
  unfold gapItemFor
  split
  · exact ⟨",", rfl⟩
  · exact ⟨"...", rfl⟩

/-- The while-loop gap-insertion of parse_phrase_alignments, started after an
already-processed prefix, walks every remaining adjacent pair and realises
exactly the specified pair-by-pair walk `markGaps`. -/
theorem whileGapsAux_markGaps (tt : List String) :
    ∀ (l : List Nat) (front : List GTok) (fuel : Nat), 2 * l.length ≤ fuel →
      whileGapsAux tt fuel (front ++ l.map GTok.num) front.length = front ++ markGaps tt l := by
  intro l
  induction l with
  | nil =>
    intro front fuel _
    cases fuel with
    | zero => simp [whileGapsAux, markGaps]
    | succ f =>
      simp only [List.map_nil, List.append_nil, whileGapsAux, markGaps]
      rw [if_neg (by omega)]
  | cons a rest ih =>
    intro front fuel hfuel
    cases rest with
    | nil =>
      cases fuel with
      | zero => exact absurd hfuel (by simp)
      | succ f =>
        simp only [List.map_cons, List.map_nil, whileGapsAux]
        rw [if_neg (by simp)]
        rfl
    | cons b rest2 =>
      obtain ⟨f, rfl⟩ : ∃ f, fuel = f + 1 :=
        ⟨fuel - 1, by simp only [List.length_cons] at hfuel; omega⟩
      simp only [List.map_cons, whileGapsAux]
      rw [if_pos (by simp only [List.length_append, List.length_cons, List.length_map]; omega)]
      have hget1 := getElemAppendMid front (GTok.num a) (GTok.num b :: rest2.map GTok.num)
      have hget2 := getElemAppendMid2 front (GTok.num a) (GTok.num b) (rest2.map GTok.num)
      by_cases h2 : natGap a b = 2
      · -- gap exactly 2: insert the comma-or-gap item, skip it, continue
        obtain ⟨s, hs⟩ := gapItemFor_is_mark tt a
        have hstep : gapStepPhrase tt (front ++ GTok.num a :: GTok.num b :: rest2.map GTok.num)
            front.length
            = front ++ GTok.num a :: GTok.mark s :: GTok.num b :: rest2.map GTok.num := by
          simp only [gapStepPhrase, hget1, hget2]
          rw [if_pos h2, ← hs, insertAt_append_succ]
        rw [hstep]
        obtain ⟨f2, rfl⟩ : ∃ f2, f = f2 + 1 :=
          ⟨f - 1, by simp only [List.length_cons] at hfuel; omega⟩
        simp only [whileGapsAux]
        rw [if_pos (by simp only [List.length_append, List.length_cons, List.length_map]; omega)]
        have hskip : gapStepPhrase tt
            (front ++ GTok.num a :: GTok.mark s :: GTok.num b :: rest2.map GTok.num)
            (front.length + 1)
            = front ++ GTok.num a :: GTok.mark s :: GTok.num b :: rest2.map GTok.num := by
          have hg := getElemAppendMid2 front (GTok.num a) (GTok.mark s)
            (GTok.num b :: rest2.map GTok.num)
          simp only [gapStepPhrase, hg]
        rw [hskip]
        have hlist : front ++ GTok.num a :: GTok.mark s :: GTok.num b :: rest2.map GTok.num
            = (front ++ [GTok.num a, GTok.mark s]) ++ (b :: rest2).map GTok.num := by
          simp
        have hpos : front.length + 1 + 1 = (front ++ [GTok.num a, GTok.mark s]).length := by
          simp
        rw [hlist, hpos, ih (front ++ [GTok.num a, GTok.mark s]) f2 (by simp only [List.length_cons, List.length_append] at hfuel ⊢; omega)]
        simp [markGaps, h2, hs]
      · by_cases h3 : 2 < natGap a b
        · -- gap above 2: insert the gap marker, skip it, continue
          have hstep : gapStepPhrase tt (front ++ GTok.num a :: GTok.num b :: rest2.map GTok.num)
              front.length
              = front ++ GTok.num a :: GTok.mark "..." :: GTok.num b :: rest2.map GTok.num := by
            simp only [gapStepPhrase, hget1, hget2]
            rw [if_neg h2, if_pos h3, insertAt_append_succ]
          rw [hstep]
          obtain ⟨f2, rfl⟩ : ∃ f2, f = f2 + 1 :=
            ⟨f - 1, by simp only [List.length_cons] at hfuel; omega⟩
          simp only [whileGapsAux]
          rw [if_pos (by simp only [List.length_append, List.length_cons, List.length_map]; omega)]
          have hskip : gapStepPhrase tt
              (front ++ GTok.num a :: GTok.mark "..." :: GTok.num b :: rest2.map GTok.num)
              (front.length + 1)
              = front ++ GTok.num a :: GTok.mark "..." :: GTok.num b :: rest2.map GTok.num := by
            have hg := getElemAppendMid2 front (GTok.num a) (GTok.mark "...")
              (GTok.num b :: rest2.map GTok.num)
            simp only [gapStepPhrase, hg]
          rw [hskip]
          have hlist : front ++ GTok.num a :: GTok.mark "..." :: GTok.num b :: rest2.map GTok.num
              = (front ++ [GTok.num a, GTok.mark "..."]) ++ (b :: rest2).map GTok.num := by
            simp
          have hpos : front.length + 1 + 1 = (front ++ [GTok.num a, GTok.mark "..."]).length := by
            simp
          rw [hlist, hpos,
            ih (front ++ [GTok.num a, GTok.mark "..."]) f2 (by simp only [List.length_cons, List.length_append] at hfuel ⊢; omega)]
          simp [markGaps, h2, h3]
        · -- adjacent pair does not qualify: no insertion, continue
          have hstep : gapStepPhrase tt (front ++ GTok.num a :: GTok.num b :: rest2.map GTok.num)
              front.length
              = front ++ GTok.num a :: GTok.num b :: rest2.map GTok.num := by
            simp only [gapStepPhrase, hget1, hget2]
            rw [if_neg h2, if_neg h3]
          rw [hstep]
          have hlist : front ++ GTok.num a :: GTok.num b :: rest2.map GTok.num
              = (front ++ [GTok.num a]) ++ (b :: rest2).map GTok.num := by
            simp
          have hpos : front.length + 1 = (front ++ [GTok.num a]).length := by
            simp
          rw [hlist, hpos, ih (front ++ [GTok.num a]) f (by simp only [List.length_cons, List.length_append] at hfuel ⊢; omega)]
          simp [markGaps, h2, h3]

/-- C5 amended, positive part.  The while-loop discontinuous-span detection
used by parse_phrase_alignments and parse_discontinuous inserts the required
item between EVERY qualifying adjacent pair: on any integer position list it
computes exactly the specified pair-by-pair walk. -/
theorem whileGaps_marks_every_pair (tt : List String) (l : List Nat) :
    whileGaps tt (l.map GTok.num) = markGaps tt l := by
  have h := whileGapsAux_markGaps tt l [] (2 * (l.map GTok.num).length + 1)
    (by simp)
  simpa [whileGaps] using h

/-- C5 counterexample.  In parse_alignments the German-keyed gap walk
iterates over `range(len(v)-1)` computed before any insertion; inserting a
marker shifts the later positions, so the qualifying adjacent pair (3, 6)
(gap 3 > 1) is examined at a shifted index and receives no marker: "3" and
"6" stay adjacent in the output. -/
theorem forRangeGapsDe_misses_qualifying_pair :
    forRangeGapsDe ["0", "3", "6"] = ["0", "...", "3", "6"] ∧
      (forRangeGapsDe ["0", "3", "6"])[2]? = some "3" ∧
      (forRangeGapsDe ["0", "3", "6"])[3]? = some "6" ∧
      1 < natGap (pyInt "3") (pyInt "6") := by
  decide

theorem tabContains_insert_of {κ α : Type} [DecidableEq κ] (d : Tab κ α) (key k : κ) (v : α)
    (h : tabContains d k = true) : tabContains (tabInsert d key v) k = true := by
  by_cases hk : key = k
  · subst hk
    simp [tabContains, tabLookup_insert_self]
  · simpa [tabContains, tabLookup_insert_ne d key k v hk] using h

theorem tabContains_update_left {κ α : Type} [DecidableEq κ] (d e : Tab κ α) (k : κ)
    (h : tabContains d k = true) : tabContains (tabUpdate d e) k = true := by
  induction e generalizing d with
  | nil => exact h
  | cons kv rest ih =>
    simp only [tabUpdate, List.foldl_cons] at ih ⊢
    exact ih (tabInsert d kv.1 kv.2) (tabContains_insert_of d kv.1 k kv.2 h)

theorem tabLookup_update_notin {κ α : Type} [DecidableEq κ] (d e : Tab κ α) (k : κ)
    (h : k ∉ tabKeys e) : tabLookup (tabUpdate d e) k = tabLookup d k := by
  induction e generalizing d with
  | nil => rfl
  | cons kv rest ih =>
    simp only [tabKeys, List.map_cons, List.mem_cons] at h
    push_neg at h
    simp only [tabUpdate, List.foldl_cons] at ih ⊢
    rw [ih (tabInsert d kv.1 kv.2) (by simpa [tabKeys] using h.2),
      tabLookup_insert_ne d kv.1 k kv.2 (fun hc => h.1 hc.symm)]

theorem tabLookup_update_found {κ α : Type} [DecidableEq κ] (d e : Tab κ α) (k : κ) (v : α)
    (h : tabLookup e k = some v) (hnd : (tabKeys e).Nodup) :
    tabLookup (tabUpdate d e) k = some v := by
  induction e generalizing d with
  | nil => simp [tabLookup] at h
  | cons kv rest ih =>
    obtain ⟨k1, v1⟩ := kv
    simp only [tabKeys, List.map_cons, List.nodup_cons] at hnd
    by_cases hk : k1 = k
    · subst hk
      simp only [tabLookup, if_pos rfl] at h
      cases h
      simp only [tabUpdate, List.foldl_cons]
      rw [show (List.foldl (fun acc kv => tabInsert acc kv.1 kv.2) (tabInsert d k1 v) rest)
          = tabUpdate (tabInsert d k1 v) rest from rfl]
      rw [tabLookup_update_notin (tabInsert d k1 v) rest k1 (by simpa [tabKeys] using hnd.1)]
      exact tabLookup_insert_self d k1 v
    · simp only [tabLookup, if_neg hk] at h
      simp only [tabUpdate, List.foldl_cons] at ih ⊢
      exact ih (tabInsert d k1 v1) h hnd.2

/-- C3 counterexample.  The per-round count accumulation of find_conns is
`dict.update`: for a source key present in both the persistent table and the
new round's table the persisted counts are REPLACED by the new counts
(5 observations then 3 observations persist as 3, not 8). -/
theorem accumulateCounts_not_additive_cex :
    accumulateCounts [("k", [("t", 5)])] [("k", [("t", 3)])] [] [] = [("k", [("t", 3)])] ∧
      tabLookup (accumulateCounts [("k", [("t", 5)])] [("k", [("t", 3)])] [] []) "k"
        ≠ some [("t", 8)] := by
  decide

/-- C3 amended.  The end-of-round accumulation is last-write-wins per source
key: a key bound in the new round's single-word count table (and not in the
phrase or discontinuous tables) ends up bound to exactly the new counts,
whatever the persistent table held before. -/
theorem accumulateCounts_replaces (persistent single phrase discont : Tab String (Tab String Nat))
    (k : String) (v : Tab String Nat)
    (h1 : tabLookup single k = some v) (hnd : (tabKeys single).Nodup)
    (h3 : k ∉ tabKeys phrase) (h4 : k ∉ tabKeys discont) :
    tabLookup (accumulateCounts persistent single phrase discont) k = some v := by
  unfold accumulateCounts
  rw [tabLookup_update_notin _ discont k h4, tabLookup_update_notin _ phrase k h3]
  exact tabLookup_update_found persistent single k v h1 hnd

/-- Witness for the amended C3: old count 5 is replaced by new count 3. -/
theorem accumulateCounts_replaces_witness :
    tabLookup (accumulateCounts [("k", [("t", 5)])] [("k", [("t", 3)])] [] []) "k"
      = some [("t", 3)] :=
  accumulateCounts_replaces [("k", [("t", 5)])] [("k", [("t", 3)])] [] [] "k" [("t", 3)] rfl
    (by decide) (by decide) (by decide)

/-- C9 counterexample.  remove_low_counts is not total: a probability-table
source key with at least one target that is absent from the count table makes
`count_dict[source]` raise KeyError. -/
theorem removeLowCounts_raises_on_missing_source :
    removeLowCounts [("a", [("b", (1 : ℚ))])] [] 0 0 = .error "KeyError" := by
  rfl

theorem singleWordRetrieval_aux_skips (alignments : Tab String (List String)) (k : String)
    (h : tabLookup alignments k = none) :
    ∀ (ws : List String) (na : Tab String (List String)), tabContains na k = false →
      tabContains (ws.foldl (fun na key =>
        match tabLookup alignments key with
        | some v => tabInsert na key v
        | none => na) na) k = false := by
  intro ws
  induction ws with
  | nil => intro na hna; exact hna
  | cons w rest ih =>
    intro na hna
    simp only [List.foldl_cons]
    cases hw : tabLookup alignments w with
    | none => exact ih na hna
    | some v =>
      refine ih (tabInsert na w v) ?_
      have hwk : w ≠ k := by
        intro hc
        rw [hc, h] at hw
        cases hw
      simpa [tabContains, tabLookup_insert_ne na w k v hwk] using hna

/-- A lexicon entry absent from the (plain-dict) precomputed alignment
mapping is skipped by the try/except in find_conns and contributes no entry
to the retrieved single-word candidates. -/
theorem singleWordRetrieval_skips_absent (alignments : Tab String (List String))
    (ws : List String) (k : String) (h : tabLookup alignments k = none) :
    tabContains (singleWordRetrieval alignments ws) k = false :=
  singleWordRetrieval_aux_skips alignments k h ws [] rfl

theorem removeLowCountsInner_total (countDict : Tab String (Tab String Nat)) (source : String)
    (cnt : Tab String Nat) (wc pc : Nat) (h : tabLookup countDict source = some cnt) :
    ∀ (entries : List (String × ℚ)) (filtered : Tab String ℚ),
      ∃ r, removeLowCountsInner countDict source wc pc entries filtered = .ok r := by
  intro entries
  induction entries with
  | nil => intro filtered; exact ⟨filtered, rfl⟩
  | cons e rest ih =>
    intro filtered
    obtain ⟨target, p⟩ := e
    simp only [removeLowCountsInner, h]
    exact ih _

theorem removeLowCounts_total (prob : Tab String (Tab String ℚ))
    (count : Tab String (Tab String Nat)) (wc pc : Nat)
    (h : ∀ s, tabContains prob s = true → tabContains count s = true) :
    ∃ r, removeLowCounts prob count wc pc = .ok r := by
  unfold removeLowCounts
  induction prob with
  | nil => exact ⟨[], rfl⟩
  | cons kv rest ih =>
    obtain ⟨source, alignment⟩ := kv
    have hcs : tabContains count source = true := by
      refine h source ?_
      simp [tabContains, tabLookup]
    obtain ⟨cnt, hcnt⟩ : ∃ cnt, tabLookup count source = some cnt := by
      cases hc : tabLookup count source with
      | none => rw [tabContains, hc] at hcs; cases hcs
      | some cnt => exact ⟨cnt, rfl⟩
    obtain ⟨inner, hinner⟩ :=
      removeLowCountsInner_total count source cnt wc pc hcnt alignment alignment
    obtain ⟨tail, htail⟩ := ih (fun s hs => by
      refine h s ?_
      by_cases hsk : source = s
      · simp [tabContains, tabLookup, hsk]
      · simpa [tabContains, tabLookup, hsk] using hs)
    exact ⟨(source, inner) :: tail, by simp only [removeLowCountsGo, hinner, htail]⟩

/-- C9 amended.  The find_conns single-word retrieval silently skips a
lexicon entry absent from the plain-dict alignment mapping (it contributes
nothing), and remove_low_counts is total whenever every source key of the
probability table is present in the count table — but, per the
counterexample, it raises KeyError when a source key with targets is absent
from the count table (a missing target inside a present source reads 0 from
the Counter and does not raise). -/
theorem missing_key_handling_amended (alignments : Tab String (List String))
    (ws : List String) (k : String) (h1 : tabLookup alignments k = none)
    (prob : Tab String (Tab String ℚ)) (count : Tab String (Tab String Nat)) (wc pc : Nat)
    (h2 : ∀ s, tabContains prob s = true → tabContains count s = true) :
    tabContains (singleWordRetrieval alignments ws) k = false ∧
      ∃ r, removeLowCounts prob count wc pc = .ok r :=
  ⟨singleWordRetrieval_skips_absent alignments ws k h1,
    removeLowCounts_total prob count wc pc h2⟩

/-- Witness for the amended C9 at concrete inputs (one absent lexicon entry;
a count table covering the probability table's only source key but missing
its target). -/
theorem missing_key_handling_amended_witness :
    tabContains (singleWordRetrieval [("a", ["x"])] ["zzz"]) "zzz" = false ∧
      ∃ r, removeLowCounts [("a", [("b", (1 : ℚ))])] [("a", [])] 1 1 = .ok r :=
  missing_key_handling_amended [("a", ["x"])] ["zzz"] "zzz" (by decide)
    [("a", [("b", (1 : ℚ))])] [("a", [])] 1 1
    (by
      intro s hs
      by_cases hsa : "a" = s
      · subst hsa
        decide
      · simp [tabContains, tabLookup, hsa] at hs)

/-- C4.  End-to-end: on the one-line corpus with seed lexicon "cependant",
probability thresholds 0.0, minimum counts 0, one French-direction round
produces the output probability table binding "cependant" to "trotzdem" with
probability 1. -/
theorem findConns_end_to_end :
    (findConns c4State [] Lang.french 0 0 0 0 1).toOption.map (fun s => s.fr_conn_alignments)
      = some [("cependant", [("trotzdem", (1 : ℚ))])] := by
  decide

/-- C7 counterexample.  With limit 3 and an explicitly passed round-1 seed
["x"] over the one-line corpus, round 2 discovers nothing (its German seed is
empty), so round 3 is invoked with the empty discovery list — and the
`if not lex` fallback then substitutes the FULL stored French lexicon
("cependant"), not (only) round-2's newly discovered connectives: round 3
processes "cependant" and the final table is non-empty, which is impossible
under the claim. -/
theorem findConns_empty_seed_fallback_cex :
    (findConns c4State ["x"] Lang.french 0 0 0 0 3).toOption.map
        (fun s => s.trace.map RoundInfo.passed) = some [["x"], [], []] ∧
      (findConns c4State ["x"] Lang.french 0 0 0 0 3).toOption.map
        (fun s => s.trace.map RoundInfo.effective) = some [["x"], [], ["cependant"]] ∧
      (findConns c4State ["x"] Lang.french 0 0 0 0 3).toOption.map
        (fun s => s.trace.map RoundInfo.newConns) = some [[], [], ["trotzdem"]] ∧
      (findConns c4State ["x"] Lang.french 0 0 0 0 3).toOption.map
        (fun s => s.fr_conn_alignments) = some [("cependant", [("trotzdem", (1 : ℚ))])] := by
  refine ⟨by decide, by decide, by decide, by decide⟩

/-- C6 counterexample.  A source key whose only target observations are empty
strings is NOT absent after the §4.3 probability estimation: it is present
with the empty-string target carrying probability 1 (remove_punct_values maps
punctuation tokens to "", but keeps existing "" observations), and it is
present in the final output probability map of the round. -/
theorem allEmpty_key_in_final_output_cex :
    (findConns c6State [] Lang.french 0 0 0 0 1).toOption.map (fun s => s.fr_conn_alignments)
      = some [("cependant", [("", (1 : ℚ))])] ∧
      tabLookup (alignmentProbabilities (removePunctValues [("x", ["", ""])])) "x"
        = some [("", (1 : ℚ))] := by
  decide

theorem tabGetDD_contains_self {κ α : Type} [DecidableEq κ] (d : Tab κ (List α)) (k : κ) :
    tabContains (tabGetDD d k).2 k = true := by
  unfold tabGetDD
  cases h : tabLookup d k with
  | some l => simp [tabContains, h]
  | none => simp [tabContains, tabLookup_insert_self]

theorem tabGetDD_lookup_some {κ α : Type} [DecidableEq κ] (d : Tab κ (List α)) (key k : κ)
    (v : List α) (h : tabLookup d k = some v) : tabLookup (tabGetDD d key).2 k = some v := by
  unfold tabGetDD
  cases hk : tabLookup d key with
  | some l => simpa using h
  | none =>
    have hne : key ≠ k := by
      intro hc
      rw [hc, h] at hk
      cases hk
    simpa [tabLookup_insert_ne d key k [] hne] using h

theorem tabGetDD_lookup_ne {κ α : Type} [DecidableEq κ] (d : Tab κ (List α)) (key k : κ)
    (hne : key ≠ k) : tabLookup (tabGetDD d key).2 k = tabLookup d k := by
  unfold tabGetDD
  cases hk : tabLookup d key with
  | some l => simp
  | none => simp [tabLookup_insert_ne d key k [] hne]

theorem tabGetDD_missing {κ α : Type} [DecidableEq κ] (d : Tab κ (List α)) (k : κ)
    (h : tabLookup d k = none) : tabLookup (tabGetDD d k).2 k = some [] := by
  unfold tabGetDD
  rw [h]
  simpa using tabLookup_insert_self d k []

theorem connCountDD_eq_foldl (alignments : Tab String (List String)) (lex : List String) :
    connCountDD alignments lex = lex.foldl connCountStep ([], alignments) := rfl

theorem connCountStep_lookup_some (st : Tab String (Tab String Nat) × Tab String (List String))
    (key k : String) (v : List String) (h : tabLookup st.2 k = some v) :
    tabLookup (connCountStep st key).2 k = some v := by
  unfold connCountStep
  exact tabGetDD_lookup_some st.2 key k v h

theorem connCountDD_foldl_lookup_some (lex : List String) :
    ∀ (st : Tab String (Tab String Nat) × Tab String (List String)) (k : String)
      (v : List String), tabLookup st.2 k = some v →
      tabLookup (lex.foldl connCountStep st).2 k = some v := by
  induction lex with
  | nil => intro st k v h; exact h
  | cons w rest ih =>
    intro st k v h
    exact ih (connCountStep st w) k v (connCountStep_lookup_some st w k v h)

theorem connCountDD_foldl_mem (lex : List String) :
    ∀ (st : Tab String (Tab String Nat) × Tab String (List String)) (k : String), k ∈ lex →
      ∃ v, tabLookup (lex.foldl connCountStep st).2 k = some v := by
  induction lex with
  | nil => intro st k h; cases h
  | cons w rest ih =>
    intro st k h
    by_cases hk : k ∈ rest
    · exact ih (connCountStep st w) k hk
    · have hw : w = k := by
        rcases List.mem_cons.mp h with h1 | h1
        · exact h1.symm
        · exact absurd h1 hk
      subst hw
      obtain ⟨v, hv⟩ : ∃ v, tabLookup (connCountStep st w).2 w = some v := by
        have hc := tabGetDD_contains_self st.2 w
        unfold connCountStep
        cases hl : tabLookup (tabGetDD st.2 w).2 w with
        | none => rw [tabContains, hl] at hc; cases hc
        | some v => exact ⟨v, rfl⟩
      exact ⟨v, connCountDD_foldl_lookup_some rest (connCountStep st w) w v hv⟩

theorem connCountDD_foldl_missing (lex : List String) :
    ∀ (st : Tab String (Tab String Nat) × Tab String (List String)) (k : String), k ∈ lex →
      tabLookup st.2 k = none →
      tabLookup (lex.foldl connCountStep st).2 k = some [] := by
  induction lex with
  | nil => intro st k h; cases h
  | cons w rest ih =>
    intro st k h hmiss
    by_cases hw : w = k
    · subst hw
      have hins : tabLookup (connCountStep st w).2 w = some [] := by
        unfold connCountStep
        exact tabGetDD_missing st.2 w hmiss
      exact connCountDD_foldl_lookup_some rest (connCountStep st w) w [] hins
    · have hk : k ∈ rest := by
        rcases List.mem_cons.mp h with h1 | h1
        · exact absurd h1.symm hw
        · exact h1
      refine ih (connCountStep st w) k hk ?_
      unfold connCountStep
      rw [tabGetDD_lookup_ne st.2 w k hw]
      exact hmiss

/-- C10.  conn_count applied to a defaultdict(list) mutates its first
argument: after the call every lexicon entry is a key of the alignments
table, an entry with no observed alignments is bound to the empty list, and
(through the `{**new_alignments, ...}` merge of find_conns, which keeps
every key of its first operand) every such injected key is present in the
round's merged candidate mapping. -/
theorem connCount_defaultdict_mutation (alignments : Tab String (List String))
    (lex : List String) (k : String) (hk : k ∈ lex) :
    tabContains (connCountDD alignments lex).2 k = true ∧
      (tabLookup alignments k = none → tabLookup (connCountDD alignments lex).2 k = some []) ∧
      ∀ (corpus : List (String × String × String)) (langPos : Nat),
        tabContains (candidateStage alignments corpus lex langPos).2.2.2 k = true := by
  refine ⟨?_, ?_, ?_⟩
  · rw [connCountDD_eq_foldl]
    obtain ⟨v, hv⟩ := connCountDD_foldl_mem lex ([], alignments) k hk
    simp [tabContains, hv]
  · intro hmiss
    rw [connCountDD_eq_foldl]
    exact connCountDD_foldl_missing lex ([], alignments) k hk hmiss
  · intro corpus langPos
    unfold candidateStage
    refine tabContains_update_left _ _ k (tabContains_update_left _ _ k ?_)
    rw [connCountDD_eq_foldl]
    obtain ⟨v, hv⟩ := connCountDD_foldl_mem lex
      ([], singleWordRetrieval alignments (lex.filter (fun w => decide (tokCount w = 1)))) k hk
    simp [tabContains, hv]

/-- Witness for C10 at a concrete input: a lexicon entry with no alignments
is injected into the (empty) alignments table and shows up in the merged
candidate mapping. -/
theorem connCount_defaultdict_mutation_witness :
    tabContains (connCountDD [] ["zzz"]).2 "zzz" = true ∧
      (tabLookup ([] : Tab String (List String)) "zzz" = none →
        tabLookup (connCountDD [] ["zzz"]).2 "zzz" = some []) ∧
      ∀ (corpus : List (String × String × String)) (langPos : Nat),
        tabContains (candidateStage [] corpus ["zzz"] langPos).2.2.2 "zzz" = true :=
  connCount_defaultdict_mutation [] ["zzz"] "zzz" (by decide)

theorem tabLookup_appendDD_self {κ α : Type} [DecidableEq κ] (d : Tab κ (List α)) (key : κ)
    (x : α) : tabLookup (tabAppendDD d key x) key = some (tabLookupD d key [] ++ [x]) := by
  unfold tabAppendDD
  cases h : tabLookup d key with
  | some l => simp [tabLookupD, h, tabLookup_insert_self]
  | none => simp [tabLookupD, h, tabLookup_insert_self]

theorem tabLookup_appendDD_ne {κ α : Type} [DecidableEq κ] (d : Tab κ (List α)) (key k : κ)
    (x : α) (h : key ≠ k) : tabLookup (tabAppendDD d key x) k = tabLookup d k := by
  unfold tabAppendDD
  cases hk : tabLookup d key with
  | some l => simp [tabLookup_insert_ne d key k _ h]
  | none => simp [tabLookup_insert_ne d key k _ h]

theorem rpvInner_ne (s k : String) (h : s ≠ k) (tgt : List String) :
    ∀ acc, tabLookup (tgt.foldl (fun a w => tabAppendDD a s (punctNorm w)) acc) k
      = tabLookup acc k := by
  induction tgt with
  | nil => intro acc; rfl
  | cons w ws ih =>
    intro acc
    simp only [List.foldl_cons]
    rw [ih, tabLookup_appendDD_ne acc s k _ h]

theorem rpvInner_self (s : String) (tgt : List String) (hne : tgt ≠ []) :
    ∀ acc, tabLookup (tgt.foldl (fun a w => tabAppendDD a s (punctNorm w)) acc) s
      = some (tabLookupD acc s [] ++ tgt.map punctNorm) := by
  induction tgt with
  | nil => exact absurd rfl hne
  | cons w ws ih =>
    intro acc
    simp only [List.foldl_cons, List.map_cons]
    cases hws : ws with
    | nil =>
      simp only [List.foldl_nil, List.map_nil]
      simpa using tabLookup_appendDD_self acc s (punctNorm w)
    | cons w2 ws2 =>
      rw [← hws, ih (by simp [hws]) (tabAppendDD acc s (punctNorm w))]
      rw [show tabLookupD (tabAppendDD acc s (punctNorm w)) s []
          = tabLookupD acc s [] ++ [punctNorm w] by
        simp [tabLookupD, tabLookup_appendDD_self acc s (punctNorm w)]]
      simp

theorem rpvOuter_preserve (k : String) (entries : List (String × List String))
    (h : ∀ e ∈ entries, e.1 ≠ k) :
    ∀ acc, tabLookup (entries.foldl (fun acc sv =>
        sv.2.foldl (fun acc2 word => tabAppendDD acc2 sv.1 (punctNorm word)) acc) acc) k
      = tabLookup acc k := by
  induction entries with
  | nil => intro acc; rfl
  | cons e rest ih =>
    intro acc
    simp only [List.foldl_cons]
    rw [ih (fun e2 he2 => h e2 (List.mem_cons_of_mem e he2)),
      rpvInner_ne e.1 k (h e (List.mem_cons_self e rest)) e.2 acc]

theorem removePunctValues_fold_lookup (k : String) (obs : List String) (hne : obs ≠ []) :
    ∀ (entries : List (String × List String)) (acc : Tab String (List String)),
      tabLookup acc k = none → tabLookup entries k = some obs → (tabKeys entries).Nodup →
      tabLookup (entries.foldl (fun acc sv =>
        sv.2.foldl (fun acc2 word => tabAppendDD acc2 sv.1 (punctNorm word)) acc) acc) k
        = some (obs.map punctNorm) := by
  intro entries
  induction entries with
  | nil => intro acc _ h2 _; cases h2
  | cons e rest ih =>
    intro acc h1 h2 hnd
    obtain ⟨s, tgt⟩ := e
    simp only [tabKeys, List.map_cons, List.nodup_cons] at hnd
    by_cases hs : s = k
    · subst hs
      simp only [tabLookup, if_pos rfl] at h2
      cases h2
      simp only [List.foldl_cons]
      rw [rpvOuter_preserve s rest
        (fun e2 he2 => fun hc => hnd.1 (by simpa [tabKeys, ← hc] using List.mem_map_of_mem Prod.fst he2))]
      rw [rpvInner_self s obs hne acc]
      simp [tabLookupD, h1]
    · simp only [tabLookup, if_neg hs] at h2
      simp only [List.foldl_cons]
      refine ih _ ?_ h2 hnd.2
      rw [rpvInner_ne s k hs tgt acc]
      exact h1

/-- remove_punct_values maps the observation list of a source key pointwise
through the punctuation normalization (dict keys are unique in Python). -/
theorem removePunctValues_lookup (d : Tab String (List String)) (k : String)
    (obs : List String) (hnd : (tabKeys d).Nodup) (h : tabLookup d k = some obs)
    (hne : obs ≠ []) :
    tabLookup (removePunctValues d) k = some (obs.map punctNorm) :=
  removePunctValues_fold_lookup k obs hne d [] rfl h hnd

theorem counterOf_allSame_aux (x : String) (l : List String) (hall : ∀ w ∈ l, w = x) :
    ∀ m, l.foldl counterAdd [(x, m)] = [(x, m + l.length)] := by
  induction l with
  | nil => intro m; simp
  | cons w ws ih =>
    intro m
    have hw : w = x := hall w (List.mem_cons_self w ws)
    subst hw
    simp only [List.foldl_cons]
    rw [show counterAdd [(w, m)] w = [(w, m + 1)] by
      simp [counterAdd, tabLookup, tabInsert]]
    rw [ih (fun v hv => hall v (List.mem_cons_of_mem w hv)) (m + 1)]
    simp only [List.length_cons]
    rw [show m + 1 + ws.length = m + (ws.length + 1) by omega]

theorem counterOf_allSame (x : String) (l : List String) (hne : l ≠ [])
    (hall : ∀ w ∈ l, w = x) : counterOf l = [(x, l.length)] := by
  cases l with
  | nil => exact absurd rfl hne
  | cons w ws =>
    have hw : w = x := hall w (List.mem_cons_self w ws)
    subst hw
    unfold counterOf
    simp only [List.foldl_cons]
    rw [show counterAdd [] w = [(w, 1)] by simp [counterAdd, tabLookup, tabInsert]]
    rw [counterOf_allSame_aux w ws (fun v hv => hall v (List.mem_cons_of_mem w hv)) 1]
    simp only [List.length_cons]
    rw [show 1 + ws.length = ws.length + 1 by omega]

/-- C6 amended.  A source key whose only observations are empty strings is
NOT removed by the §4.3 estimation: remove_punct_values keeps the
empty-string observations (its guard `if word` skips them), and
alignment_probabilities then binds the key to the empty-string target with
probability exactly 1. -/
theorem allEmpty_key_present_after_estimation (d : Tab String (List String)) (k : String)
    (obs : List String) (hnd : (tabKeys d).Nodup) (h : tabLookup d k = some obs)
    (hne : obs ≠ []) (hall : ∀ w ∈ obs, w = "") :
    tabLookup (alignmentProbabilities (removePunctValues d)) k = some [("", 1)] := by
  have hobs2 : obs.map punctNorm = obs := by
    have : ∀ w ∈ obs, punctNorm w = w := by
      intro w hw
      rw [hall w hw]
      rfl
    rw [List.map_congr_left this]
    exact List.map_id obs
  have hrpv : tabLookup (removePunctValues d) k = some obs := by
    rw [removePunctValues_lookup d k obs hnd h hne, hobs2]
  have hmem : k ∈ tabKeys (removePunctValues d) :=
    mem_tabKeys_of_lookup (removePunctValues d) k obs hrpv
  have hD : tabLookupD (removePunctValues d) k [] = obs :=
    tabLookupD_eq_of_lookup (removePunctValues d) k obs [] hrpv
  have hcount : counterOf obs = [("", obs.length)] := counterOf_allSame "" obs hne hall
  simp only [alignmentProbabilities, tabLookup_mapVals,
    alignmentProbabilities_fold_lookup (removePunctValues d) (removePunctValues d) [] k,
    hmem, if_pos, hD, hcount]
  have hlen0 : obs.length ≠ 0 := by
    cases obs with
    | nil => exact absurd rfl hne
    | cons a l => simp
  have hq : ((obs.length : Nat) : ℚ) ≠ 0 := Nat.cast_ne_zero.mpr hlen0
  simp [tabMapVals, valuesSum, ratDiv_eq_div, div_self hq]

/-- Witness for the amended C6 at a concrete input: a key observed twice,
both times unaligned. -/
theorem allEmpty_key_present_after_estimation_witness :
    tabLookup (alignmentProbabilities (removePunctValues [("x", ["", ""])])) "x"
      = some [("", 1)] :=
  allEmpty_key_present_after_estimation [("x", ["", ""])] "x" ["", ""] (by decide) rfl
    (by decide) (by decide)

theorem applyRoundResult_counter (st : FState) (lang : Lang) (c : Nat)
    (nc : Tab String (Tab String Nat)) (v9 : Tab String (Tab String ℚ)) (ncs : List String)
    (ri : RoundInfo) : (applyRoundResult st lang c nc v9 ncs ri).counter = c := by
  cases lang <;> rfl

theorem applyRoundResult_trace (st : FState) (lang : Lang) (c : Nat)
    (nc : Tab String (Tab String Nat)) (v9 : Tab String (Tab String ℚ)) (ncs : List String)
    (ri : RoundInfo) : (applyRoundResult st lang c nc v9 ncs ri).trace = st.trace ++ [ri] := by
  cases lang <;> rfl

theorem except_map_ok {α β : Type} (f : α → β) (e : Except String α) (y : β)
    (h : Except.map f e = .ok y) : ∃ x, e = .ok x ∧ f x = y := by
  cases e with
  | error a => simp [Except.map] at h
  | ok x => exact ⟨x, rfl, by simpa [Except.map] using h⟩

/-- Structural facts about one committed round: the counter advances by one,
the ghost trace grows by exactly the round's record, and the record's fields
are the round's language, the lexicon passed in, the stored lexicon, the
effective lexicon after empty-seed fallback and curation, and the other
language's lexicon as grown by the round's discoveries. -/
theorem roundStep_spec (st : FState) (lex0 : List String) (lang : Lang) (wt pt : ℚ)
    (wc pc : Nat) (st2 : FState) (ri : RoundInfo)
    (h : roundStep st lex0 lang wt pt wc pc = .ok (st2, ri)) :
    st2.counter = st.counter + 1 ∧ st2.trace = st.trace ++ [ri] ∧
      ri.lang = lang ∧ ri.passed = lex0 ∧ ri.stored = storedLex st lang ∧
      ri.effective = (if lex0 = [] then storedLex st lang else lex0).filter
        (fun c => decide (c ∉ delListOf lang)) ∧
      ri.otherLexAfter = otherLexOf st lang ++ ri.newConns := by
  unfold roundStep at h
  obtain ⟨v4, hv4, hf⟩ := except_map_ok _ _ _ h
  rw [Prod.ext_iff] at hf
  obtain ⟨ha, hb⟩ := hf
  subst ha
  subst hb
  refine ⟨applyRoundResult_counter _ _ _ _ _ _ _, applyRoundResult_trace _ _ _ _ _ _ _,
    rfl, rfl, rfl, rfl, rfl⟩

/-- Trace structure of the recursive round control, by induction on the
fuel: a successful run from counter `c < limit` appends exactly
`limit - c` round records; their languages alternate strictly; the first
record's seed is the lexicon passed in; each later round is invoked with the
previous round's grown other-language lexicon (after round 1) or its newly
discovered connectives (after every later round); and each round's effective
lexicon is its passed lexicon — or, when that is empty, the stored lexicon —
minus the per-language curated removals. -/
theorem findConnsGo_trace (wt pt : ℚ) (wc pc : Nat) (limit : Nat) :
    ∀ (fuel : Nat) (st : FState) (lex0 : List String) (lang : Lang) (s : FState),
      findConnsGo wt pt wc pc limit fuel st lex0 lang = .ok s →
      st.counter < limit →
      ∃ rs : List RoundInfo,
        s.trace = st.trace ++ rs ∧
        rs.length = limit - st.counter ∧
        rs.map RoundInfo.lang = altLangs lang (limit - st.counter) ∧
        (∀ r0, rs.head? = some r0 → r0.passed = lex0) ∧
        (∀ i r1 r2, rs[i]? = some r1 → rs[i + 1]? = some r2 →
          r2.passed = (if st.counter + i + 1 = 1 then r1.otherLexAfter else r1.newConns)) ∧
        (∀ r ∈ rs, r.effective = (if r.passed = [] then r.stored else r.passed).filter
          (fun c => decide (c ∉ delListOf r.lang))) := by
  intro fuel
  induction fuel with
  | zero =>
    intro st lex0 lang s h hc
    cases h
  | succ f ih =>
    intro st lex0 lang s h hc
    rw [findConnsGo] at h
    cases hrs : roundStep st lex0 lang wt pt wc pc with
    | error e => rw [hrs] at h; cases h
    | ok pr =>
      obtain ⟨st2, ri⟩ := pr
      rw [hrs] at h
      dsimp only [] at h
      obtain ⟨hcounter, htrace, hlang, hpassed, hstored, heff, holex⟩ :=
        roundStep_spec st lex0 lang wt pt wc pc st2 ri hrs
      by_cases hlim : st2.counter = limit
      · rw [if_pos hlim] at h
        cases h
        refine ⟨[ri], ?_, ?_, ?_, ?_, ?_, ?_⟩
        · exact htrace
        · simp only [List.length_singleton]
          omega
        · have h1 : limit - st.counter = 1 := by omega
          rw [h1]
          simp [altLangs, hlang]
        · intro r0 hr0
          simp only [List.head?_cons, Option.some.injEq] at hr0
          rw [← hr0]
          exact hpassed
        · intro i r1 r2 hg1 hg2
          rcases i with _ | j <;> simp at hg2
        · intro r hr
          simp only [List.mem_singleton] at hr
          subst hr
          rw [← hstored, ← hpassed, ← hlang] at heff
          exact heff
      · rw [if_neg hlim] at h
        have hc2 : st2.counter < limit := by omega
        by_cases h1 : st2.counter = 1
        · rw [if_pos h1] at h
          obtain ⟨rs2, ht2, hl2, hlangs2, hhead2, hadj2, heffs2⟩ :=
            ih st2 ri.otherLexAfter (flipLang lang) s h hc2
          refine ⟨ri :: rs2, ?_, ?_, ?_, ?_, ?_, ?_⟩
          · rw [ht2, htrace, List.append_assoc]
            rfl
          · simp only [List.length_cons]
            omega
          · have hn : limit - st.counter = (limit - st2.counter) + 1 := by omega
            rw [hn]
            simp only [altLangs, List.map_cons]
            rw [hlang, hlangs2]
          · intro r0 hr0
            simp only [List.head?_cons, Option.some.injEq] at hr0
            rw [← hr0]
            exact hpassed
          · intro i r1 r2 hg1 hg2
            cases i with
            | zero =>
              simp only [List.getElem?_cons_zero, Option.some.injEq] at hg1
              simp only [List.getElem?_cons_succ] at hg2
              have hcond : st.counter + 0 + 1 = 1 := by omega
              rw [if_pos hcond, ← hg1]
              exact hhead2 r2 (by
                cases rs2 with
                | nil => simp at hg2
                | cons a l => simpa using hg2)
            | succ j =>
              simp only [List.getElem?_cons_succ] at hg1 hg2
              rw [if_neg (by omega)]
              have hres := hadj2 j r1 r2 hg1 hg2
              rwa [if_neg (by omega)] at hres
          · intro r hr
            rcases List.mem_cons.mp hr with h2 | h2
            · subst h2
              rw [← hstored, ← hpassed, ← hlang] at heff
              exact heff
            · exact heffs2 r h2
        · rw [if_neg h1] at h
          obtain ⟨rs2, ht2, hl2, hlangs2, hhead2, hadj2, heffs2⟩ :=
            ih st2 ri.newConns (flipLang lang) s h hc2
          refine ⟨ri :: rs2, ?_, ?_, ?_, ?_, ?_, ?_⟩
          · rw [ht2, htrace, List.append_assoc]
            rfl
          · simp only [List.length_cons]
            omega
          · have hn : limit - st.counter = (limit - st2.counter) + 1 := by omega
            rw [hn]
            simp only [altLangs, List.map_cons]
            rw [hlang, hlangs2]
          · intro r0 hr0
            simp only [List.head?_cons, Option.some.injEq] at hr0
            rw [← hr0]
            exact hpassed
          · intro i r1 r2 hg1 hg2
            cases i with
            | zero =>
              simp only [List.getElem?_cons_zero, Option.some.injEq] at hg1
              simp only [List.getElem?_cons_succ] at hg2
              have hcond : ¬ (st.counter + 0 + 1 = 1) := by omega
              rw [if_neg hcond, ← hg1]
              exact hhead2 r2 (by
                cases rs2 with
                | nil => simp at hg2
                | cons a l => simpa using hg2)
            | succ j =>
              simp only [List.getElem?_cons_succ] at hg1 hg2
              rw [if_neg (by omega)]
              have hres := hadj2 j r1 r2 hg1 hg2
              rwa [if_neg (by omega)] at hres
          · intro r hr
            rcases List.mem_cons.mp hr with h2 | h2
            · subst h2
              rw [← hstored, ← hpassed, ← hlang] at heff
              exact heff
            · exact heffs2 r h2

/-- C7 amended.  On a fresh controller (counter 0) and any round limit ≥ 1,
a run of find_conns that completes without raising performs exactly `limit`
rounds; the active language strictly alternates; round 1 works on the lexicon
passed in; round 2 is invoked with the other language's full accumulated
lexicon (original seed plus round-1 discoveries, `RoundInfo.otherLexAfter`);
every round after round 2 is invoked with the previous round's newly
discovered connectives — and each round's effective working lexicon is the
lexicon it was invoked with, except that an EMPTY invocation lexicon falls
back to the active language's full stored lexicon (then minus the curated
per-language removals), which is where the original claim fails. -/
theorem bootstrap_round_control (st : FState) (lex0 : List String) (lang : Lang)
    (wt pt : ℚ) (wc pc : Nat) (limit : Nat) (s : FState)
    (h0 : st.counter = 0) (htr : st.trace = []) (hlim : 1 ≤ limit)
    (h : findConns st lex0 lang wt pt wc pc limit = .ok s) :
    s.trace.length = limit ∧
      s.trace.map RoundInfo.lang = altLangs lang limit ∧
      (∀ r0, s.trace.head? = some r0 → r0.passed = lex0) ∧
      (∀ r1 r2, s.trace[0]? = some r1 → s.trace[1]? = some r2 →
        r2.passed = r1.otherLexAfter) ∧
      (∀ i r1 r2, 1 ≤ i → s.trace[i]? = some r1 → s.trace[i + 1]? = some r2 →
        r2.passed = r1.newConns) ∧
      (∀ r ∈ s.trace, r.effective = (if r.passed = [] then r.stored else r.passed).filter
        (fun c => decide (c ∉ delListOf r.lang))) := by
  obtain ⟨rs, htrace, hlen, hlangs, hhead, hadj, heffs⟩ :=
    findConnsGo_trace wt pt wc pc limit limit st lex0 lang s h (by omega)
  rw [htr] at htrace
  simp only [List.nil_append] at htrace
  subst htrace
  rw [h0] at hlen hlangs hadj
  simp only [Nat.sub_zero] at hlen hlangs
  refine ⟨hlen, hlangs, hhead, ?_, ?_, heffs⟩
  · intro r1 r2 hg1 hg2
    have hres := hadj 0 r1 r2 hg1 hg2
    simpa using hres
  · intro i r1 r2 hi hg1 hg2
    have hres := hadj i r1 r2 hg1 hg2
    rwa [if_neg (by omega)] at hres

/-- Witness for the amended C7: the limit-3 run over the one-line corpus
completes, performs exactly 3 rounds, and alternates French, German,
French. -/
theorem bootstrap_round_control_witness :
    ∃ s, findConns c4State ["x"] Lang.french 0 0 0 0 3 = .ok s ∧
      s.trace.length = 3 ∧
      s.trace.map RoundInfo.lang = altLangs Lang.french 3 := by
  cases hrun : findConns c4State ["x"] Lang.french 0 0 0 0 3 with
  | error e =>
    have hcontra : (findConns c4State ["x"] Lang.french 0 0 0 0 3).toOption.map
        (fun s => s.trace.length) = some 3 := by decide
    rw [hrun] at hcontra
    cases hcontra
  | ok s =>
    obtain ⟨hlen, hlangs, _, _, _, _⟩ :=
      bootstrap_round_control c4State ["x"] Lang.french 0 0 0 0 3 s rfl rfl (by omega) hrun
    exact ⟨s, rfl, hlen, hlangs⟩
